import Mathlib

/-!
Verification of the rbac authorization engine against its specification.

The definitions below are a shallow embedding of the JavaScript sources:

* src/lib/role.js: the Role class with normalizeClaims, normalizePermissions
  (wildcard permission trees), generatePermissionTree (inheritance resolution
  by mutable merge) and isAuthorized (the tree matcher);
* src/lib/util.js: the helper functions (some, someNotNil, mapNotNilFlat,
  eachNotNil) and the Authorizer class, whose constructor builds the role map
  and the claims index, and whose authorizeByRoles and authorizeByPermissions
  methods evaluate authorization decisions.

Plain JavaScript objects with string keys are embedded as association lists
in property order: assignment to a present key keeps its position, assignment
to a fresh key appends it (the same discipline as JavaScript property order
and the es6 Map used for the role cache).  Values that are either the literal
true or a nested object (the permission tree nodes) are the inductive PTree.
JavaScript divergence (the sources have no guard against inheritance cycles,
where generatePermissionTree recurses forever) is modelled with a fuel
parameter: the result none stands for a run that does not terminate.
-/

namespace Rbac

/-- Association list lookup: the first entry with the given key, as property
access on a JavaScript object reads the single entry with that key. -/
def lookupA {β : Type} (k : String) : List (String × β) → Option β
  | [] => none
  | (k₁, v) :: rest => if k₁ = k then some v else lookupA k rest

/-- Association list assignment, with JavaScript property-order semantics:
writing a present key keeps its position, writing a fresh key appends it. -/
def setA {β : Type} (k : String) (v : β) : List (String × β) → List (String × β)
  | [] => [(k, v)]
  | (k₁, v₁) :: rest => if k₁ = k then (k, v) :: rest else (k₁, v₁) :: setA k v rest

/-- Splits a list of characters at dots; models the tail of String.split. -/
def splitDotAux : List Char → List Char → List String
  | [], acc => [String.mk acc.reverse]
  | ch :: rest, acc =>
    if ch = '.' then String.mk acc.reverse :: splitDotAux rest []
    else splitDotAux rest (ch :: acc)

/-- Models the lodash call split(str, ".") used on permission strings: the
empty string splits to one empty segment, and a trailing dot yields a final
empty segment. -/
def splitDot (s : String) : List String := splitDotAux s.data []

/-- Models the JavaScript Array toString used by template literals such as
the one in the AuthorizationError messages: elements joined by commas. -/
def joinComma : List String → String
  | [] => ""
  | [s] => s
  | s :: rest => s ++ "," ++ joinComma rest

/-- A permission tree value: in the JavaScript sources a node of the
permission tree maps segment strings either to the literal true (leaf) or to
a nested plain object (node). -/
inductive PTree where
  | leaf : PTree
  | node : List (String × PTree) → PTree

/-- Property access on a permission tree value: reading a property of the
literal true yields undefined, reading a property of an object looks the key
up. -/
def kget : PTree → String → Option PTree
  | .leaf, _ => none
  | .node c, k => lookupA k c

/-- Models toPlainObject applied to a property of a tree node: an object is
kept as is, the literal true and undefined become the empty object. -/
def toChildren : Option PTree → List (String × PTree)
  | some (.node c) => c
  | _ => []

/-- Models assign(null, ...values(obj)) from normalizePermissions: a shallow
union of all object-valued children in property order, where later children
override earlier keys and the literal true contributes nothing. -/
def assignVals (c : List (String × PTree)) : List (String × PTree) :=
  c.foldl (fun acc p =>
    match p.2 with
    | .leaf => acc
    | .node vc => vc.foldl (fun a q => setA q.1 q.2 a) acc) []

/-- One insertion walk of Role.normalizePermissions over the segment list of
a single permission pattern, acting on the children of the current node:
a final star segment sets the all-depth marker, any other final segment sets
a literal leaf; at a non-final segment the walk descends into an existing
single-level wildcard child if present, creates one seeded from the sibling
children when the segment is a star, and otherwise descends into the literal
child named by the segment. -/
def insParts : List (String × PTree) → List String → List (String × PTree)
  | c, [] => c
  | c, [last] => if last = "*" then setA "**" .leaf c else setA last .leaf c
  | c, str :: rest =>
    match lookupA "*" c with
    | some w => setA "*" (.node (insParts (toChildren (some w)) rest)) c
    | none =>
      if str = "*" then setA "*" (.node (insParts (assignVals c) rest)) c
      else setA str (.node (insParts (toChildren (lookupA str c)) rest)) c

/-- Role.normalizePermissions: fold every permission pattern into the tree,
starting from the empty object. -/
def normalizePermissions (ps : List String) : PTree :=
  .node (ps.foldl (fun acc s => insParts acc (splitDot s)) [])

/-- The matcher loop of Role.isAuthorized over the query segments.  The
current object is an Option PTree: none models a falsy current object (the
walk failed), some models a truthy one.  At every step an all-depth marker
that is literally true succeeds at once; at the final segment the query
succeeds on a literal leaf for that exact segment or on a single-level
wildcard child carrying an entry for the empty segment; otherwise the walk
descends through the wildcard child when present, else through the literal
child named by the segment. -/
def matchSegs : Option PTree → List String → Bool
  | none, _ => false
  | some _, [] => false
  | some obj, val :: rest =>
    match kget obj "**" with
    | some .leaf => true
    | _ =>
      if rest.isEmpty then
        match kget obj val with
        | some .leaf => true
        | _ =>
          match kget obj "*" with
          | some w => (kget w "").isSome
          | none => false
      else
        match kget obj "*" with
        | some w => matchSegs (some w) rest
        | none => matchSegs (kget obj val) rest

/-- Role.isAuthorized on a permission string: split at dots and run the
matcher against the permission tree of the role. -/
def treeMatches (t : PTree) (q : String) : Bool :=
  matchSegs (some t) (splitDot q)

/-- The three input shapes a claim value may take in a role declaration: a
bare string, an array of strings, or an object of value-to-boolean flags. -/
inductive ClaimVal where
  | str : String → ClaimVal
  | arr : List String → ClaimVal
  | obj : List (String × Bool) → ClaimVal

/-- Normalized claims of one role: claim key to an object of claim values
flagged true or false. -/
abbrev NClaims := List (String × List (String × Bool))

/-- One branch of Role.normalizeClaims: merge a raw claim value into the
object accumulated for its claim key.  An object records each flag coerced
to a boolean, an array flags each element true, and a bare value is flagged
by its own truthiness (the empty string is falsy). -/
def applyClaimVal (o : List (String × Bool)) : ClaimVal → List (String × Bool)
  | .obj l => l.foldl (fun acc p => setA p.1 p.2 acc) o
  | .arr l => l.foldl (fun acc v => setA v true acc) o
  | .str s => setA s (s != "") o

/-- Role.normalizeClaims: fold the raw claim entries, accumulating an object
per claim key. -/
def normalizeClaims (cs : List (String × ClaimVal)) : NClaims :=
  cs.foldl (fun res p => setA p.1 (applyClaimVal ((lookupA p.1 res).getD []) p.2) res) []

/-- A constructed Role: the fields the Role constructor assigns, with claims
and permissions already normalized. -/
structure Role where
  id : String
  description : Option String
  inherit : List String
  claims : NClaims
  permissions : PTree

/-- A raw role declaration of the policy document, before normalization. -/
structure RoleDecl where
  id : String
  description : Option String
  permissions : List String
  inherit : List String
  claims : List (String × ClaimVal)

/-- The body of the Role constructor once the id was checked: normalize the
claims and the permissions. -/
def mkRole (d : RoleDecl) : Role :=
  { id := d.id
    description := d.description
    inherit := d.inherit
    claims := normalizeClaims d.claims
    permissions := normalizePermissions d.permissions }

/-- The role cache is the es6 Map of the Authorizer keyed by role id; every
entry was inserted by the Role constructor as set(this.id, this), so the key
of an entry is the id field of the stored role. -/
abbrev Cache := List Role

/-- Map.get on the role cache. -/
def cacheGet (c : Cache) (id : String) : Option Role :=
  c.find? (fun r => r.id == id)

/-- Map.set on the role cache: overwriting a present key keeps its insertion
position, a fresh key is appended. -/
def cacheSet : Cache → Role → Cache
  | [], r => [r]
  | r₁ :: rest, r => if r₁.id = r.id then r :: rest else r₁ :: cacheSet rest r

/-- Errors the sources throw: RBACError at construction and
AuthorizationError at decision time. -/
inductive JsErr where
  | authorization : String → JsErr
  | rbac : String → JsErr
deriving DecidableEq

mutual

/-- Merge of permission tree values, modelling the lodash merge used by
generatePermissionTree: two objects merge key by key, with destination
property order kept and fresh source keys appended; a source leaf overrides
whatever the destination holds; a source object replaces a destination leaf
by a copy of itself. -/
def mergeT : PTree → PTree → PTree
  | .node d, .node s => .node (mergeOld d s ++ s.filter (fun q => (lookupA q.1 d).isNone))
  | .leaf, .node s => .node s
  | _, .leaf => .leaf

def mergeOld : List (String × PTree) → List (String × PTree) → List (String × PTree)
  | [], _ => []
  | (k, v) :: rest, s =>
    (k, match lookupA k s with
        | some sv => mergeT v sv
        | none => v) :: mergeOld rest s

end

/-- The loop of generatePermissionTree over the inherited role ids: ids
absent from the cache are skipped silently; for a present id the inherited
role resolves its own tree first (mutating the cache), and the result is
merged into the accumulator.  The resolver is a parameter so that the fuel
recursion stays structural. -/
def goInherit (gen : Cache → String → Option (PTree × Cache)) :
    Cache → List String → PTree → Option (PTree × Cache)
  | c, [], acc => some (acc, c)
  | c, i :: rest, acc =>
    match cacheGet c i with
    | none => goInherit gen c rest acc
    | some _ =>
      match gen c i with
      | none => none
      | some (t, c₁) => goInherit gen c₁ rest (mergeT acc t)

/-- Role.generatePermissionTree, with the mutation of role objects made
explicit: the call reads the role, resolves and merges every inherited tree
(each recursive call may rewrite the cached permissions of the roles it
visits), re-reads its own possibly rewritten permissions, merges them on top
and stores the result back into the cache.  The fuel bounds the recursion
depth; none models the infinite recursion the JavaScript code runs into on
an inheritance cycle. -/
def generatePermissionTree : Nat → Cache → String → Option (PTree × Cache)
  | 0, _, _ => none
  | n + 1, c, id =>
    match cacheGet c id with
    | none => none
    | some role =>
      match goInherit (generatePermissionTree n) c role.inherit (.node []) with
      | none => none
      | some (res, c₁) =>
        match cacheGet c₁ id with
        | none => none
        | some role₁ =>
          some (mergeT res role₁.permissions,
                cacheSet c₁ { role₁ with permissions := mergeT res role₁.permissions })

/-- The claims index of the Authorizer: claim key to an object from claim
value to the list of roles declaring that value.  The JavaScript index
stores references to the role objects held in the role map; this embedding
stores their ids and dereferences through the map, which names the same
objects because the constructor indexes exactly the roles of the map. -/
abbrev Idx := List (String × List (String × List String))

/-- The inner loop of the Authorizer constructor over the normalized claim
values of one role under one claim key: a value already carrying roles
throws under strict mode, otherwise the role is appended; a fresh value
starts a one-element list.  The normalized boolean flag of the value is not
consulted. -/
def addVals (strict : Bool) (rid : String) :
    List (String × Bool) → List (String × List String) → Except JsErr (List (String × List String))
  | [], claim => .ok claim
  | (v, _) :: rest, claim =>
    match lookupA v claim with
    | some l =>
      if strict then .error (.rbac "Claim already has role")
      else addVals strict rid rest (setA v (l ++ [rid]) claim)
    | none => addVals strict rid rest (setA v [rid] claim)

/-- The outer loop of the Authorizer constructor over the normalized claims
of one role: for each claim key, read the current index entry (an absent
entry reads as the empty object), fold the values in, and write the entry
back. -/
def addClaims (strict : Bool) (rid : String) : NClaims → Idx → Except JsErr Idx
  | [], idx => .ok idx
  | (key, kvs) :: rest, idx =>
    match addVals strict rid kvs ((lookupA key idx).getD []) with
    | .error e => .error e
    | .ok claim => addClaims strict rid rest (setA key claim idx)

/-- The second loop of the Authorizer constructor, iterating the role map in
insertion order: each role resolves its permission tree (mutating the
cache) and is then indexed by its normalized claims. -/
def phase2 (fuel : Nat) (strict : Bool) :
    List String → Cache → Idx → Option (Except JsErr (Cache × Idx))
  | [], c, idx => some (.ok (c, idx))
  | id :: rest, c, idx =>
    match cacheGet c id with
    | none => none
    | some role =>
      match generatePermissionTree fuel c id with
      | none => none
      | some (_, c₁) =>
        match addClaims strict role.id role.claims idx with
        | .error e => .error e |> some
        | .ok idx₁ => phase2 fuel strict rest c₁ idx₁

/-- The first loop of the Authorizer constructor: construct every role and
put it in the cache; the Role constructor throws when the id is falsy, and
Map.set silently overwrites a present id in place. -/
def phase1 : List RoleDecl → Cache → Except JsErr Cache
  | [], c => .ok c
  | d :: rest, c =>
    if d.id = "" then .error (.rbac "Role requires id")
    else phase1 rest (cacheSet c (mkRole d))

/-- The constructed Authorizer: the role map, the claims index and the two
options the decision methods read. -/
structure Authorizer where
  roles : Cache
  claims : Idx
  strict : Bool
  authorizeAgainst : Option (List String)

/-- The Authorizer constructor: build the roles, then resolve every
permission tree and build the claims index in one pass over the role map.
none models a construction that never terminates (an inheritance cycle). -/
def buildAuthorizer (fuel : Nat) (decls : List RoleDecl) (strict : Bool)
    (authorizeAgainst : Option (List String)) : Option (Except JsErr Authorizer) :=
  match phase1 decls [] with
  | .error e => some (.error e)
  | .ok c =>
    match phase2 fuel strict (c.map (fun r => r.id)) c [] with
    | none => none
    | some (.error e) => some (.error e)
    | some (.ok (c₁, idx)) => some (.ok ⟨c₁, idx, strict, authorizeAgainst⟩)

/-- Identity claims supplied per authorization call: claim key to the list
of claim values carried (a bare string value behaves as a one-element
list under the iteration helpers of util.js). -/
abbrev IdClaims := List (String × List String)

/-- Authorizer.getRolesByClaim: look the claim key up in the index; for each
carried value, collect the roles its entry names, skipping absent entries
(mapNotNilFlat).  An absent index key yields no candidates. -/
def getRolesByClaim (a : Authorizer) (id : String) (val : Option (List String)) : List Role :=
  match lookupA id a.claims with
  | some claim =>
    ((val.getD []).flatMap (fun s => (lookupA s claim).getD [])).filterMap
      (fun rid => cacheGet a.roles rid)
  | none => []

/-- Models keys(claims): the keys of the identity claims, with undefined
claims yielding no keys. -/
def keysOf (claims : Option IdClaims) : List String :=
  (claims.getD []).map Prod.fst

/-- Authorizer.getRolesByClaims: the claim keys to authorize against default
to the option of the call, then the option of the Authorizer, then every key
of the identity claims; absent identity claims yield no candidates. -/
def getRolesByClaims (a : Authorizer) (claims : Option IdClaims)
    (ids : Option (List String)) : List Role :=
  let ks := (ids.orElse (fun _ => a.authorizeAgainst)).getD (keysOf claims)
  match claims with
  | none => []
  | some cl => ks.flatMap (fun k => getRolesByClaim a k (lookupA k cl))

/-- The template literal of the two AuthorizationError messages: an array
interpolates as its comma-joined elements and undefined as the word
undefined. -/
def strOfIds : Option (List String) → String
  | none => "undefined"
  | some l => joinComma l

/-- Authorizer.authorizeByRoles: compute the candidate roles of the identity
claims, succeed returning the claims when any requested id is the id of a
candidate, and throw an AuthorizationError naming the requested roles
otherwise. -/
def authorizeByRoles (a : Authorizer) (claims : Option IdClaims)
    (ids : Option (List String)) (authAgainst : Option (List String)) :
    Except JsErr (Option IdClaims) :=
  let roles := getRolesByClaims a claims authAgainst
  let found := !roles.isEmpty &&
    (match ids with
     | none => false
     | some l => l.any (fun id => roles.any (fun r => r.id == id)))
  if found then .ok claims
  else .error (.authorization ("Not Authorized, Missing one of Required Roles: " ++ strOfIds ids))

/-- Authorizer.authorizeByPermissions: compute the candidate roles of the
identity claims, succeed returning the claims when any requested permission
is matched by the tree of some candidate (someNotNil over the permissions),
and throw an AuthorizationError naming the requested permissions
otherwise. -/
def authorizeByPermissions (a : Authorizer) (claims : Option IdClaims)
    (perms : Option (List String)) (authAgainst : Option (List String)) :
    Except JsErr (Option IdClaims) :=
  let roles := getRolesByClaims a claims authAgainst
  let found := !roles.isEmpty &&
    (match perms with
     | none => false
     | some l => l.any (fun p => roles.any (fun r => matchSegs (some r.permissions) (splitDot p))))
  if found then .ok claims
  else .error (.authorization ("Not Authorized, Missing one of Required Permissions: " ++ strOfIds perms))

/-- Authorizer.authorizeByRoles with the engine state made explicit: the
pair carries the decision result together with the Authorizer as it stands
after the call; the method body performs reads only, so every step passes
the state through unchanged. -/
def authorizeByRolesS (a : Authorizer) (claims : Option IdClaims)
    (ids : Option (List String)) (authAgainst : Option (List String)) :
    Except JsErr (Option IdClaims) × Authorizer :=
  let roles := getRolesByClaims a claims authAgainst
  let found := !roles.isEmpty &&
    (match ids with
     | none => false
     | some l => l.any (fun id => roles.any (fun r => r.id == id)))
  if found then (.ok claims, a)
  else (.error (.authorization ("Not Authorized, Missing one of Required Roles: " ++ strOfIds ids)), a)

/-- Authorizer.authorizeByPermissions with the engine state made explicit,
as for authorizeByRolesS. -/
def authorizeByPermissionsS (a : Authorizer) (claims : Option IdClaims)
    (perms : Option (List String)) (authAgainst : Option (List String)) :
    Except JsErr (Option IdClaims) × Authorizer :=
  let roles := getRolesByClaims a claims authAgainst
  let found := !roles.isEmpty &&
    (match perms with
     | none => false
     | some l => l.any (fun p => roles.any (fun r => matchSegs (some r.permissions) (splitDot p))))
  if found then (.ok claims, a)
  else (.error (.authorization ("Not Authorized, Missing one of Required Permissions: " ++ strOfIds perms)), a)

/-- Projection of a successful construction. -/
def getOk : Option (Except JsErr Authorizer) → Option Authorizer
  | some (.ok a) => some a
  | _ => none

/-- The successfully constructed Authorizer, when construction terminates
without throwing. -/
def buildOk (fuel : Nat) (decls : List RoleDecl) (strict : Bool)
    (authorizeAgainst : Option (List String)) : Option Authorizer :=
  getOk (buildAuthorizer fuel decls strict authorizeAgainst)

/-- The list of role ids an Authorizer claims index holds under a claim key
and claim value. -/
def idxGet (a : Authorizer) (k v : String) : List String :=
  (lookupA v ((lookupA k a.claims).getD [])).getD []

/-- The first segment of a permission pattern. -/
def firstSeg (p : String) : String :=
  match splitDot p with
  | [] => ""
  | s :: _ => s

/-- Every pattern of the list starts with a plain segment: not empty, not a
wildcard. -/
def plainFirst (ps : List String) : Bool :=
  ps.all (fun p => firstSeg p != "" && firstSeg p != "*" && firstSeg p != "**")

/-- The one key an insertion walk touches at the root of the tree. -/
def rootTarget : List String → String
  | [] => ""
  | [last] => if last = "*" then "**" else last
  | s :: _ :: _ => if s = "*" then "*" else s

/-- A one-role policy whose role covers posts.view but not posts.edit. -/
def viewerDecl : RoleDecl :=
  { id := "viewer"
    description := none
    permissions := ["posts.view"]
    inherit := []
    claims := [("groups", ClaimVal.arr ["viewer"])] }

/-- A one-role policy whose role carries a claim value explicitly flagged
false. -/
def falsyClaimDecl : RoleDecl :=
  { id := "r"
    description := none
    permissions := ["p.q"]
    inherit := []
    claims := [("groups", ClaimVal.obj [("admin", false)])] }

/-- An arbitrary constructed engine used to witness the decision theorems. -/
def witnessAuth : Authorizer :=
  (buildOk 2 [viewerDecl] false none).getD ⟨[], [], false, none⟩

/-- The subtree (or leaf marker) a permission tree holds at an exact path. -/
def getPath : PTree → List String → Option PTree
  | t, [] => some t
  | .leaf, _ :: _ => none
  | .node c, k :: rest =>
    match lookupA k c with
    | some v => getPath v rest
    | none => none

/-- A second role for the resolution examples: editor inherits viewer. -/
def editorDecl : RoleDecl :=
  { id := "editor"
    description := none
    permissions := ["posts.edit"]
    inherit := ["viewer"]
    claims := [("groups", ClaimVal.arr ["editor"])] }

/-- A two-role cache with one inheritance edge, as the Authorizer
constructor builds it before resolution. -/
def demoCache : Cache := [mkRole viewerDecl, mkRole editorDecl]

/-- No key occurs twice in the association list.  Plain JavaScript objects
cannot carry duplicate keys, so every list this embedding builds through
setA satisfies the predicate. -/
def nodupKeys {β : Type} : List (String × β) → Bool
  | [] => true
  | (k, _) :: rest => !(rest.any (fun q => q.1 == k)) && nodupKeys rest

mutual

/-- Well-formed permission tree: no node carries a duplicate key. -/
def wfT : PTree → Bool
  | .leaf => true
  | .node c => nodupKeys c && wfL c

/-- Well-formedness of a children list: every value is well-formed. -/
def wfL : List (String × PTree) → Bool
  | [] => true
  | (_, t) :: rest => wfT t && wfL rest

end

/-- Every permission tree of the cache is well-formed. -/
def wfCache (c : Cache) : Bool :=
  c.all (fun r => wfT r.permissions)

/-- The tree carries the literal true at exactly this path. -/
def leafAt : PTree → List String → Bool
  | .leaf, [] => true
  | .node _, [] => false
  | .leaf, _ :: _ => false
  | .node c, k :: rest =>
    match lookupA k c with
    | some v => leafAt v rest
    | none => false

/-- The fold of the pure resolution over the inherited role ids: the
specification counterpart of goInherit that reads the fixed original cache
and performs no mutation. -/
def goPre (pres : Cache → String → Option PTree) (c : Cache) :
    List String → PTree → Option PTree
  | [], acc => some acc
  | i :: rest, acc =>
    match cacheGet c i with
    | none => goPre pres c rest acc
    | some _ =>
      match pres c i with
      | none => none
      | some t => goPre pres c rest (mergeT acc t)

/-- Pure inheritance resolution against a fixed cache: merge the resolved
trees of the inherited roles, then merge the declared permissions of the
role on top.  generatePermissionTree computes exactly this value, as the
resolution theorems below show. -/
def presolve : Nat → Cache → String → Option PTree
  | 0, _, _ => none
  | n + 1, c, id =>
    match cacheGet c id with
    | none => none
    | some role =>
      match goPre (presolve n) c role.inherit (.node []) with
      | none => none
      | some res => some (mergeT res role.permissions)

/-- One role evolved from another during resolution against the original
cache: all fields agree except that the permissions may have been rewritten
to a resolved tree of the original cache. -/
def RoleStep (c₀ : Cache) (r r₁ : Role) : Prop :=
  r₁.id = r.id ∧ r₁.description = r.description ∧ r₁.inherit = r.inherit ∧
  r₁.claims = r.claims ∧
  (r₁.permissions = r.permissions ∨ ∃ m, presolve m c₀ r₁.id = some r₁.permissions)

/-- A cache evolved entrywise from another during resolution against the
original cache. -/
def Evolved (c₀ c c₁ : Cache) : Prop :=
  List.Forall₂ (RoleStep c₀) c c₁

/-- A normalized claims value declares the claim key and claim value pair
(with either flag). -/
def hasKVn (nc : NClaims) (k v : String) : Bool :=
  (lookupA v ((lookupA k nc).getD [])).isSome

/-- The role declares the claim key and claim value pair in its normalized
claims (with either flag). -/
def hasKV (r : Role) (k v : String) : Bool :=
  hasKVn r.claims k v

/-- The list of role ids a claims index holds under a claim key and claim
value. -/
def idxLook (idx : Idx) (k v : String) : List String :=
  (lookupA v ((lookupA k idx).getD [])).getD []

/-- The claims index holds an entry (of whatever content) under the claim
key and claim value: exactly the truthiness test of the strict-mode check
in the Authorizer constructor. -/
def idxHas (idx : Idx) (k v : String) : Bool :=
  (lookupA v ((lookupA k idx).getD [])).isSome

/-- Both association levels of a normalized claims value are duplicate
free. -/
def nodupClaims (nc : NClaims) : Bool :=
  nodupKeys nc && nc.all (fun p => nodupKeys p.2)

/-- Two roles of distinct ids both declaring the claim pair groups equal to
admin, colliding under strict mode. -/
def adminADecl : RoleDecl :=
  { id := "a"
    description := none
    permissions := ["x.y"]
    inherit := []
    claims := [("groups", ClaimVal.str "admin")] }

/-- The second role of the strict-mode collision example. -/
def adminBDecl : RoleDecl :=
  { id := "b"
    description := none
    permissions := ["z.w"]
    inherit := []
    claims := [("groups", ClaimVal.str "admin")] }

/-- The earlier of two duplicate declarations of the role id x. -/
def dupXDecl1 : RoleDecl :=
  { id := "x"
    description := none
    permissions := ["p.one"]
    inherit := []
    claims := [] }

/-- A role of id y declaring the same claim pair as the duplicate role. -/
def dupYDecl : RoleDecl :=
  { id := "y"
    description := none
    permissions := ["p.two"]
    inherit := []
    claims := [("groups", ClaimVal.str "a")] }

/-- The later duplicate declaration of the role id x, overwriting the
earlier one in the role map. -/
def dupXDecl2 : RoleDecl :=
  { id := "x"
    description := none
    permissions := ["p.three"]
    inherit := []
    claims := [("groups", ClaimVal.str "a")] }

/-- The role stored in the cache under the id declares the claim key and
claim value pair in its normalized claims. -/
def declKV (c : Cache) (i k v : String) : Bool :=
  match cacheGet c i with
  | some r => hasKV r k v
  | none => false

/-- The Authorizer built from the two duplicate x declarations. -/
def dupWitnessAuth : Authorizer :=
  (buildOk 1 [dupXDecl1, dupXDecl2] false none).getD ⟨[], [], false, none⟩

section BasicLemmas

theorem lookupA_setA_self {β : Type} (k : String) (v : β) (l : List (String × β)) :
    lookupA k (setA k v l) = some v := by
  induction l with
  | nil => simp [setA, lookupA]
  | cons p rest ih =>
    by_cases h : p.1 = k
    · simp [setA, h, lookupA]
    · simp [setA, h, lookupA, ih]

theorem lookupA_setA_other {β : Type} {k k₁ : String} (h : k₁ ≠ k) (v : β)
    (l : List (String × β)) : lookupA k (setA k₁ v l) = lookupA k l := by
  induction l with
  | nil => simp [setA, lookupA, h]
  | cons p rest ih =>
    by_cases h₁ : p.1 = k₁
    · simp [setA, h₁, lookupA, h]
    · simp only [setA, h₁, if_false]
      by_cases h₂ : p.1 = k
      · simp [lookupA, h₂]
      · simp [lookupA, h₂, ih]

theorem splitDotAux_ne_nil (l acc : List Char) : splitDotAux l acc ≠ [] := by
  induction l generalizing acc with
  | nil => simp [splitDotAux]
  | cons ch rest ih =>
    by_cases h : ch = '.'
    · simp [splitDotAux, h]
    · simp [splitDotAux, h, ih]

theorem splitDot_ne_nil (s : String) : splitDot s ≠ [] :=
  splitDotAux_ne_nil s.data []

theorem matchSegs_none (q : List String) : matchSegs none q = false := by
  cases q <;> rfl

theorem matchSegs_leaf (q : List String) : matchSegs (some .leaf) q = false := by
  cases q with
  | nil => rfl
  | cons v rest =>
    cases rest with
    | nil => rfl
    | cons w r => simp [matchSegs, kget, matchSegs_none]

end BasicLemmas

section SelfMatch

/-- Walking a one-child node along its own key steps into the child. -/
theorem matchSegs_step_single (p : String) (Y : List (String × PTree)) (q : String)
    (rest : List String) :
    matchSegs (some (.node [(p, .node Y)])) (p :: q :: rest) =
      matchSegs (some (.node Y)) (q :: rest) := by
  by_cases hps : p = "**"
  · subst hps
    simp [matchSegs, kget, lookupA]
  · by_cases hp : p = "*"
    · subst hp
      simp [matchSegs, kget, lookupA]
    · simp [matchSegs, kget, lookupA, hp, hps]

/-- A tree built by inserting a single segment list matches that very
segment list, whether or not the segments are wildcards. -/
theorem matchSegs_insParts_self (parts : List String) (hne : parts ≠ []) :
    matchSegs (some (.node (insParts [] parts))) parts = true := by
  induction parts with
  | nil => exact absurd rfl hne
  | cons p tail ih =>
    cases tail with
    | nil =>
      by_cases hp : p = "*"
      · subst hp
        rfl
      · by_cases hpp : p = "**"
        · subst hpp
          rfl
        · simp only [insParts, hp, if_false, setA]
          simp [matchSegs, kget, lookupA, hp, hpp]

    | cons q rest =>
      have ih₁ := ih (by simp)
      by_cases hp : p = "*"
      · subst hp
        have h1 : insParts [] ("*" :: q :: rest) =
            [("*", PTree.node (insParts [] (q :: rest)))] := rfl
        rw [h1, matchSegs_step_single]
        exact ih₁
      · have h1 : insParts [] (p :: q :: rest) =
            [(p, PTree.node (insParts [] (q :: rest)))] := by
          simp [insParts, lookupA, hp, toChildren, setA]
        rw [h1, matchSegs_step_single]
        exact ih₁

end SelfMatch

section RootKeys

theorem lookupA_insParts_none {parts : List String} {c : List (String × PTree)} {k : String}
    (hc : lookupA k c = none) (hk : k ≠ rootTarget parts) :
    lookupA k (insParts c parts) = none := by
  match parts with
  | [] => exact hc
  | [last] =>
    simp only [rootTarget] at hk
    by_cases hl : last = "*"
    · simp only [insParts, hl, if_true]
      rw [lookupA_setA_other (by simp [hl] at hk; exact fun h => hk h.symm) _ _]
      exact hc
    · simp only [insParts, hl, if_false]
      rw [lookupA_setA_other (by simp [hl] at hk; exact fun h => hk h.symm) _ _]
      exact hc
  | s :: q :: rest =>
    simp only [rootTarget] at hk
    simp only [insParts]
    cases hstar : lookupA "*" c with
    | some w =>
      have hks : k ≠ "*" := fun h => by rw [h, hstar] at hc; exact Option.noConfusion hc
      rw [lookupA_setA_other (fun h => hks h.symm) _ _]
      exact hc
    | none =>
      by_cases hs : s = "*"
      · simp only [hs, if_true] at hk ⊢
        rw [lookupA_setA_other (fun h => hk h.symm) _ _]
        exact hc
      · simp only [hs, if_false] at hk ⊢
        rw [lookupA_setA_other (fun h => hk h.symm) _ _]
        exact hc

theorem rootTarget_splitDot {p : String} (h1 : firstSeg p ≠ "*") :
    rootTarget (splitDot p) = firstSeg p := by
  have hne := splitDot_ne_nil p
  unfold firstSeg at h1 ⊢
  match hs : splitDot p with
  | [] => exact absurd hs hne
  | [s] =>
    rw [hs] at h1
    simp [rootTarget, h1]
  | s :: q :: rest =>
    rw [hs] at h1
    simp [rootTarget, h1]

theorem lookupA_normalizePermissions_none {ps : List String} {k : String}
    (hk : ∀ p ∈ ps, k ≠ rootTarget (splitDot p)) :
    kget (normalizePermissions ps) k = none := by
  unfold normalizePermissions
  suffices h : ∀ c, lookupA k c = none →
      lookupA k (ps.foldl (fun acc s => insParts acc (splitDot s)) c) = none by
    exact h [] rfl
  induction ps with
  | nil => intro c hc; exact hc
  | cons p rest ih =>
    intro c hc
    simp only [List.foldl_cons]
    exact ih (fun q hq => hk q (by simp [hq])) _ (lookupA_insParts_none hc (hk p (by simp)))

end RootKeys

section ClaimC2

/-- C2, counterexample: the pattern consisting of the single wildcard
segment star builds a tree that the matcher accepts on the query star
itself, although the claim states every wildcard-bearing pattern must be
rejected as a query against its own tree. -/
theorem C2_counterexample : treeMatches (normalizePermissions ["*"]) "*" = true := rfl

/-- C2, amended: querying the tree built from any single pattern with that
very pattern always succeeds, wildcard segments included; the matcher does
not restrict queries to concrete permissions. -/
theorem C2_amended (p : String) : treeMatches (normalizePermissions [p]) p = true := by
  show matchSegs (some (.node (insParts [] (splitDot p)))) (splitDot p) = true
  exact matchSegs_insParts_self _ (splitDot_ne_nil p)

end ClaimC2

section ClaimC4

/-- C4, counterexample: inserting the empty pattern makes the empty query
match, although the claim states the empty query fails against every tree. -/
theorem C4_counterexample : treeMatches (normalizePermissions [""]) "" = true := rfl

/-- C4, amended: the empty query fails against every tree whose patterns
all start with a plain first segment (not empty, not a wildcard); but the
tree built from the empty pattern itself matches the empty query, and that
tree matches no other query. -/
theorem C4_amended :
    (∀ ps, plainFirst ps = true → treeMatches (normalizePermissions ps) "" = false) ∧
    treeMatches (normalizePermissions [""]) "" = true ∧
    (∀ q : List String, matchSegs (some (normalizePermissions [""])) q = true → q = [""]) := by
  refine ⟨?_, rfl, ?_⟩
  · intro ps hps
    simp only [plainFirst, List.all_eq_true, Bool.and_eq_true, bne_iff_ne] at hps
    have hfirst : ∀ p ∈ ps, ∀ k, k = "" ∨ k = "*" ∨ k = "**" →
        k ≠ rootTarget (splitDot p) := by
      intro p hp k hk
      obtain ⟨⟨h0, h1⟩, h2⟩ := hps p hp
      rw [rootTarget_splitDot h1]
      rcases hk with h | h | h <;> rw [h] <;>
        first
          | exact fun hh => h0 hh.symm
          | exact fun hh => h1 hh.symm
          | exact fun hh => h2 hh.symm
    have hss : lookupA "**" (toChildren (some (normalizePermissions ps))) = none := by
      have : kget (normalizePermissions ps) "**" = none :=
        lookupA_normalizePermissions_none (fun p hp => hfirst p hp _ (by simp))
      cases hnp : normalizePermissions ps with
      | leaf => simp [toChildren, lookupA]
      | node c => rw [hnp] at this; simpa [toChildren, kget] using this
    have he : lookupA "" (toChildren (some (normalizePermissions ps))) = none := by
      have : kget (normalizePermissions ps) "" = none :=
        lookupA_normalizePermissions_none (fun p hp => hfirst p hp _ (by simp))
      cases hnp : normalizePermissions ps with
      | leaf => simp [toChildren, lookupA]
      | node c => rw [hnp] at this; simpa [toChildren, kget] using this
    have hs : lookupA "*" (toChildren (some (normalizePermissions ps))) = none := by
      have : kget (normalizePermissions ps) "*" = none :=
        lookupA_normalizePermissions_none (fun p hp => hfirst p hp _ (by simp))
      cases hnp : normalizePermissions ps with
      | leaf => simp [toChildren, lookupA]
      | node c => rw [hnp] at this; simpa [toChildren, kget] using this
    show matchSegs (some (normalizePermissions ps)) [""] = false
    cases hnp : normalizePermissions ps with
    | leaf => exact matchSegs_leaf _
    | node c =>
      rw [hnp] at hss he hs
      simp only [toChildren] at hss he hs
      simp [matchSegs, kget, hss, he, hs]
  · intro q hq
    have hverb : normalizePermissions [""] = .node [("", .leaf)] := rfl
    rw [hverb] at hq
    match q with
    | [] => exact absurd hq (by simp [matchSegs])
    | [v] =>
      by_cases hv : v = ""
      · rw [hv]
      · exfalso
        have hne : ¬ (("" : String) = v) := fun h => hv h.symm
        have hfalse : matchSegs (some (PTree.node [("", PTree.leaf)])) [v] = false := by
          simp [matchSegs, kget, lookupA, hne]
        rw [hfalse] at hq
        exact Bool.noConfusion hq
    | v :: w :: r =>
      exfalso
      by_cases hv : ("" : String) = v
      · rw [show matchSegs (some (PTree.node [("", PTree.leaf)])) (v :: w :: r) =
            matchSegs (lookupA v [("", PTree.leaf)]) (w :: r) from by
            simp [matchSegs, kget, lookupA]] at hq
        rw [show lookupA v [("", PTree.leaf)] = some PTree.leaf from by simp [lookupA, hv]] at hq
        rw [matchSegs_leaf] at hq
        exact Bool.noConfusion hq
      · rw [show matchSegs (some (PTree.node [("", PTree.leaf)])) (v :: w :: r) =
            matchSegs (lookupA v [("", PTree.leaf)]) (w :: r) from by
            simp [matchSegs, kget, lookupA]] at hq
        rw [show lookupA v [("", PTree.leaf)] = none from by simp [lookupA, hv]] at hq
        rw [matchSegs_none] at hq
        exact Bool.noConfusion hq

end ClaimC4

section ClaimC1

/-- C1: the code at the failing input.  The identity carries the viewer
group, the candidate role covers posts.view but no candidate covers
posts.edit, and the request lists both permissions; the claim (and the
repository README) requires the call to fail, yet authorizeByPermissions
succeeds because it folds the requested permissions with someNotNil, a
disjunction. -/
theorem C1_code_behavior :
    (buildOk 2 [viewerDecl] false none).map
        (fun a => authorizeByPermissions a (some [("groups", ["viewer"])])
          (some ["posts.view", "posts.edit"]) none)
      = some (.ok (some [("groups", ["viewer"])])) ∧
    (buildOk 2 [viewerDecl] false none).map
        (fun a => (getRolesByClaims a (some [("groups", ["viewer"])]) none).all
          (fun r => !(treeMatches r.permissions "posts.edit")))
      = some true := ⟨rfl, rfl⟩

end ClaimC1

section ClaimC3

/-- C3: the code at the failing input.  The claim value admin under the
key groups normalizes to false, yet the Authorizer constructor indexes the
role under that pair all the same (the inner loop never reads the
normalized flag), so the role becomes a candidate for an identity carrying
groups admin. -/
theorem C3_code_behavior :
    normalizeClaims [("groups", ClaimVal.obj [("admin", false)])]
      = [("groups", [("admin", false)])] ∧
    (buildOk 2 [falsyClaimDecl] false none).map (fun a => idxGet a "groups" "admin")
      = some ["r"] ∧
    (buildOk 2 [falsyClaimDecl] false none).map
        (fun a => (getRolesByClaims a (some [("groups", ["admin"])]) none).map (fun r => r.id))
      = some ["r"] := ⟨rfl, rfl, rfl⟩

end ClaimC3

section DecisionLemmas

theorem authorizeByRoles_eq (a : Authorizer) (claims : Option IdClaims)
    (ids : Option (List String)) (aa : Option (List String)) :
    authorizeByRoles a claims ids aa =
      if (!(getRolesByClaims a claims aa).isEmpty &&
          (match ids with
           | none => false
           | some l => l.any (fun id => (getRolesByClaims a claims aa).any (fun r => r.id == id))))
      then .ok claims
      else .error (.authorization
        ("Not Authorized, Missing one of Required Roles: " ++ strOfIds ids)) := rfl

theorem authorizeByPermissions_eq (a : Authorizer) (claims : Option IdClaims)
    (perms : Option (List String)) (aa : Option (List String)) :
    authorizeByPermissions a claims perms aa =
      if (!(getRolesByClaims a claims aa).isEmpty &&
          (match perms with
           | none => false
           | some l => l.any (fun p => (getRolesByClaims a claims aa).any
               (fun r => matchSegs (some r.permissions) (splitDot p)))))
      then .ok claims
      else .error (.authorization
        ("Not Authorized, Missing one of Required Permissions: " ++ strOfIds perms)) := rfl

theorem authorizeByRolesS_fst (a : Authorizer) (claims : Option IdClaims)
    (ids : Option (List String)) (aa : Option (List String)) :
    (authorizeByRolesS a claims ids aa).1 = authorizeByRoles a claims ids aa := by
  simp only [authorizeByRolesS, authorizeByRoles]
  split <;> rfl

theorem authorizeByRolesS_snd (a : Authorizer) (claims : Option IdClaims)
    (ids : Option (List String)) (aa : Option (List String)) :
    (authorizeByRolesS a claims ids aa).2 = a := by
  simp only [authorizeByRolesS]
  split <;> rfl

theorem authorizeByPermissionsS_fst (a : Authorizer) (claims : Option IdClaims)
    (perms : Option (List String)) (aa : Option (List String)) :
    (authorizeByPermissionsS a claims perms aa).1 = authorizeByPermissions a claims perms aa := by
  simp only [authorizeByPermissionsS, authorizeByPermissions]
  split <;> rfl

theorem authorizeByPermissionsS_snd (a : Authorizer) (claims : Option IdClaims)
    (perms : Option (List String)) (aa : Option (List String)) :
    (authorizeByPermissionsS a claims perms aa).2 = a := by
  simp only [authorizeByPermissionsS]
  split <;> rfl

end DecisionLemmas

section ClaimC6

/-- C6: with identity claims and a non-empty list of requested role ids,
authorizeByRoles succeeds returning the claims exactly when some requested
id is the id of a candidate role derived from the claims (a pure
disjunction over the requested ids), and otherwise fails with an
AuthorizationError naming the requested roles. -/
theorem C6_roles_disjunction (a : Authorizer) (cl : IdClaims) (ids : List String)
    (hcl : cl ≠ []) (hids : ids ≠ []) :
    (authorizeByRoles a (some cl) (some ids) none = .ok (some cl) ↔
      ∃ id ∈ ids, ∃ r ∈ getRolesByClaims a (some cl) none, r.id = id) ∧
    ((¬ ∃ id ∈ ids, ∃ r ∈ getRolesByClaims a (some cl) none, r.id = id) →
      authorizeByRoles a (some cl) (some ids) none =
        .error (.authorization ("Not Authorized, Missing one of Required Roles: " ++ joinComma ids))) := by
  have hdef := authorizeByRoles_eq a (some cl) (some ids) none
  have hfound : (!(getRolesByClaims a (some cl) none).isEmpty &&
      ids.any (fun id => (getRolesByClaims a (some cl) none).any (fun r => r.id == id))) = true ↔
      ∃ id ∈ ids, ∃ r ∈ getRolesByClaims a (some cl) none, r.id = id := by
    rw [Bool.and_eq_true]
    constructor
    · rintro ⟨-, h⟩
      simpa [List.any_eq_true] using h
    · intro h
      refine ⟨?_, by simpa [List.any_eq_true] using h⟩
      obtain ⟨id, -, r, hr, -⟩ := h
      simp [List.isEmpty_iff, List.ne_nil_of_mem hr]
  by_cases hc : (!(getRolesByClaims a (some cl) none).isEmpty &&
      ids.any (fun id => (getRolesByClaims a (some cl) none).any (fun r => r.id == id))) = true
  · rw [hdef, if_pos hc]
    exact ⟨⟨fun _ => hfound.mp hc, fun _ => rfl⟩, fun hn => absurd (hfound.mp hc) hn⟩
  · rw [hdef, if_neg hc]
    constructor
    · constructor
      · intro h
        exact absurd h (by simp)
      · intro h
        exact absurd (hfound.mpr h) hc
    · intro _
      rfl

/-- C6, witness at a concrete engine: the viewer identity requests the ids
admin and viewer; viewer is a candidate, so the disjunction succeeds. -/
theorem C6_roles_disjunction_witness :
    (authorizeByRoles witnessAuth (some [("groups", ["viewer"])]) (some ["admin", "viewer"]) none
        = .ok (some [("groups", ["viewer"])]) ↔
      ∃ id ∈ ["admin", "viewer"],
        ∃ r ∈ getRolesByClaims witnessAuth (some [("groups", ["viewer"])]) none, r.id = id) ∧
    ((¬ ∃ id ∈ ["admin", "viewer"],
        ∃ r ∈ getRolesByClaims witnessAuth (some [("groups", ["viewer"])]) none, r.id = id) →
      authorizeByRoles witnessAuth (some [("groups", ["viewer"])]) (some ["admin", "viewer"]) none =
        .error (.authorization
          ("Not Authorized, Missing one of Required Roles: " ++ joinComma ["admin", "viewer"]))) :=
  C6_roles_disjunction witnessAuth [("groups", ["viewer"])] ["admin", "viewer"]
    (by decide) (by decide)

end ClaimC6

section ClaimC9

/-- C9: the two decision calls leave the engine state untouched on every
path (the explicit-state variants return the input Authorizer unchanged),
return the identity claims exactly as supplied on success, and on failure
throw an AuthorizationError whose message names the requested permissions
(respectively roles), all of which are unsatisfied at that point: no
candidate role matches any requested permission (respectively carries any
requested id). -/
theorem C9_frame_and_errors (a : Authorizer) (cl : IdClaims) (perms ids : List String)
    (aa : Option (List String)) :
    (authorizeByPermissionsS a (some cl) (some perms) aa).2 = a ∧
    (authorizeByRolesS a (some cl) (some ids) aa).2 = a ∧
    (∀ v, (authorizeByPermissionsS a (some cl) (some perms) aa).1 = .ok v → v = some cl) ∧
    (∀ v, (authorizeByRolesS a (some cl) (some ids) aa).1 = .ok v → v = some cl) ∧
    ((∀ v, (authorizeByPermissionsS a (some cl) (some perms) aa).1 ≠ .ok v) →
      (authorizeByPermissionsS a (some cl) (some perms) aa).1 =
        .error (.authorization
          ("Not Authorized, Missing one of Required Permissions: " ++ joinComma perms)) ∧
      ∀ p ∈ perms, ∀ r ∈ getRolesByClaims a (some cl) aa, treeMatches r.permissions p = false) ∧
    ((∀ v, (authorizeByRolesS a (some cl) (some ids) aa).1 ≠ .ok v) →
      (authorizeByRolesS a (some cl) (some ids) aa).1 =
        .error (.authorization
          ("Not Authorized, Missing one of Required Roles: " ++ joinComma ids)) ∧
      ∀ id ∈ ids, ∀ r ∈ getRolesByClaims a (some cl) aa, r.id ≠ id) := by
  rw [authorizeByPermissionsS_fst, authorizeByRolesS_fst,
      authorizeByPermissionsS_snd, authorizeByRolesS_snd]
  rw [authorizeByPermissions_eq, authorizeByRoles_eq]
  refine ⟨rfl, rfl, ?_, ?_, ?_, ?_⟩
  · intro v hv
    split at hv
    · exact (Except.ok.inj hv).symm
    · exact Except.noConfusion hv
  · intro v hv
    split at hv
    · exact (Except.ok.inj hv).symm
    · exact Except.noConfusion hv
  · intro hfail
    by_cases hc : (!(getRolesByClaims a (some cl) aa).isEmpty &&
        perms.any (fun p => (getRolesByClaims a (some cl) aa).any
          (fun r => matchSegs (some r.permissions) (splitDot p)))) = true
    · exact absurd (by rw [if_pos hc]) (hfail (some cl))
    · rw [if_neg hc]
      refine ⟨rfl, ?_⟩
      intro p hp r hr
      rw [Bool.and_eq_true] at hc
      push_neg at hc
      by_cases hempty : (getRolesByClaims a (some cl) aa).isEmpty = true
      · rw [List.isEmpty_iff] at hempty
        rw [hempty] at hr
        exact absurd hr (List.not_mem_nil r)
      · have hany := Bool.eq_false_iff.mpr (hc (by simpa using hempty))
        rw [List.any_eq_false] at hany
        have h2 := hany p hp
        have h3 := Bool.eq_false_iff.mpr h2
        rw [List.any_eq_false] at h3
        simpa [treeMatches] using h3 r hr
  · intro hfail
    by_cases hc : (!(getRolesByClaims a (some cl) aa).isEmpty &&
        ids.any (fun id => (getRolesByClaims a (some cl) aa).any (fun r => r.id == id))) = true
    · exact absurd (by rw [if_pos hc]) (hfail (some cl))
    · rw [if_neg hc]
      refine ⟨rfl, ?_⟩
      intro id hid r hr
      rw [Bool.and_eq_true] at hc
      push_neg at hc
      by_cases hempty : (getRolesByClaims a (some cl) aa).isEmpty = true
      · rw [List.isEmpty_iff] at hempty
        rw [hempty] at hr
        exact absurd hr (List.not_mem_nil r)
      · have hany := Bool.eq_false_iff.mpr (hc (by simpa using hempty))
        rw [List.any_eq_false] at hany
        have h2 := hany id hid
        have h3 := Bool.eq_false_iff.mpr h2
        rw [List.any_eq_false] at h3
        simpa using h3 r hr

end ClaimC9

section TreeInduction

theorem PTree.sizeOf_lt_of_mem {c : List (String × PTree)} {k : String} {t : PTree}
    (h : (k, t) ∈ c) : sizeOf t < sizeOf (PTree.node c) := by
  have h1 : sizeOf (k, t) ≤ sizeOf c := by
    have := List.sizeOf_lt_of_mem h
    omega
  simp at h1 ⊢
  omega

/-- Induction over permission trees through the nested children lists. -/
theorem PTree.myInd (P : PTree → Prop) (hleaf : P .leaf)
    (hnode : ∀ c, (∀ k t, (k, t) ∈ c → P t) → P (.node c)) : ∀ t, P t := by
  have H : ∀ n t, sizeOf t ≤ n → P t := by
    intro n
    induction n using Nat.strong_induction_on with
    | _ n ih =>
      intro t ht
      match t with
      | .leaf => exact hleaf
      | .node c =>
        apply hnode
        intro k t₁ hmem
        have hlt := PTree.sizeOf_lt_of_mem hmem
        exact ih (sizeOf t₁) (by omega) t₁ (Nat.le_refl _)
  intro t
  exact H (sizeOf t) t (Nat.le_refl _)

end TreeInduction

section LookupLemmas

theorem lookupA_append {β : Type} (k : String) (l₁ l₂ : List (String × β)) :
    lookupA k (l₁ ++ l₂) =
      match lookupA k l₁ with
      | some v => some v
      | none => lookupA k l₂ := by
  induction l₁ with
  | nil => simp [lookupA]
  | cons p rest ih =>
    by_cases h : p.1 = k
    · simp [lookupA, h]
    · simpa [lookupA, h] using ih

theorem lookupA_isSome_of_mem {β : Type} {k : String} {v : β} {l : List (String × β)}
    (h : (k, v) ∈ l) : (lookupA k l).isSome = true := by
  induction l with
  | nil => exact absurd h (List.not_mem_nil _)
  | cons p rest ih =>
    by_cases hk : p.1 = k
    · simp [lookupA, hk]
    · rcases List.mem_cons.mp h with h₁ | h₁
      · exact absurd (congrArg Prod.fst h₁.symm) hk
      · simpa [lookupA, hk] using ih h₁

theorem lookupA_mem {β : Type} {k : String} {v : β} {l : List (String × β)}
    (h : lookupA k l = some v) : (k, v) ∈ l := by
  induction l with
  | nil => exact absurd h (by simp [lookupA])
  | cons p rest ih =>
    match p with
    | (k₁, v₁) =>
      by_cases hk : k₁ = k
      · rw [lookupA, if_pos hk] at h
        obtain rfl := Option.some.inj h
        subst hk
        exact List.mem_cons_self _ _
      · rw [lookupA, if_neg hk] at h
        exact List.mem_cons_of_mem _ (ih h)

theorem lookupA_eq_none_iff {β : Type} {k : String} {l : List (String × β)} :
    lookupA k l = none ↔ k ∉ l.map Prod.fst := by
  constructor
  · intro h hk
    obtain ⟨p, hp, hfst⟩ := List.mem_map.mp hk
    have := lookupA_isSome_of_mem (show (k, p.2) ∈ l from by rw [← hfst]; exact hp)
    rw [h] at this
    exact Bool.noConfusion this
  · intro h
    cases hl : lookupA k l with
    | none => rfl
    | some v => exact absurd (List.mem_map.mpr ⟨(k, v), lookupA_mem hl, rfl⟩) h

theorem nodupKeys_iff {β : Type} (l : List (String × β)) :
    nodupKeys l = true ↔ (l.map Prod.fst).Nodup := by
  induction l with
  | nil => simp [nodupKeys]
  | cons p rest ih =>
    simp only [nodupKeys, Bool.and_eq_true, List.map_cons, List.nodup_cons, ih]
    constructor
    · rintro ⟨h₁, h₂⟩
      refine ⟨?_, h₂⟩
      intro hmem
      obtain ⟨q, hq, hfst⟩ := List.mem_map.mp hmem
      have : rest.any (fun q => q.1 == p.1) = true :=
        List.any_eq_true.mpr ⟨q, hq, by simp [hfst]⟩
      simp [this] at h₁
    · rintro ⟨h₁, h₂⟩
      refine ⟨?_, h₂⟩
      simp only [Bool.not_eq_true']
      rw [List.any_eq_false]
      intro q hq
      simp only [beq_iff_eq]
      intro hfst
      exact h₁ (List.mem_map.mpr ⟨q, hq, hfst⟩)

theorem nodupKeys_lookupA {β : Type} {l : List (String × β)} (hnd : nodupKeys l = true)
    {k : String} {v : β} (hm : (k, v) ∈ l) : lookupA k l = some v := by
  induction l with
  | nil => exact absurd hm (List.not_mem_nil _)
  | cons p rest ih =>
    simp only [nodupKeys, Bool.and_eq_true] at hnd
    rcases List.mem_cons.mp hm with h₁ | h₁
    · rw [← h₁]
      simp [lookupA]
    · by_cases hk : p.1 = k
      · exfalso
        have : rest.any (fun q => q.1 == p.1) = true :=
          List.any_eq_true.mpr ⟨(k, v), h₁, by simp [hk]⟩
        simp [this] at hnd
      · rw [lookupA, if_neg hk]
        exact ih hnd.2 h₁

theorem lookupA_filter_key {β : Type} (p : String → Bool) (k : String)
    (l : List (String × β)) :
    lookupA k (l.filter (fun q => p q.1)) = if p k then lookupA k l else none := by
  induction l with
  | nil => simp [lookupA]
  | cons q rest ih =>
    rw [List.filter_cons]
    by_cases hq : p q.1 = true
    · rw [if_pos hq]
      by_cases hk : q.1 = k
      · subst hk
        simp [lookupA, hq]
      · rw [lookupA, if_neg hk, ih]
        by_cases hpk : p k = true <;> simp [hpk, lookupA, hk]
    · rw [if_neg hq, ih]
      by_cases hk : q.1 = k
      · subst hk
        simp [hq, lookupA]
      · by_cases hpk : p k = true <;> simp [hpk, lookupA, hk]

theorem wfL_iff_mem (c : List (String × PTree)) :
    wfL c = true ↔ ∀ k t, (k, t) ∈ c → wfT t = true := by
  induction c with
  | nil => simp [wfL]
  | cons p rest ih =>
    match p with
    | (k₀, t₀) =>
      simp only [wfL, Bool.and_eq_true, ih]
      constructor
      · rintro ⟨h₁, h₂⟩ k t hm
        rcases List.mem_cons.mp hm with h₃ | h₃
        · obtain ⟨-, rfl⟩ := Prod.mk.injEq .. ▸ h₃
          exact h₁
        · exact h₂ k t h₃
      · intro h
        exact ⟨h k₀ t₀ (by simp), fun k t hm => h k t (List.mem_cons_of_mem _ hm)⟩

theorem wfT_node_iff (c : List (String × PTree)) :
    wfT (.node c) = true ↔ nodupKeys c = true ∧ wfL c = true := by
  simp [wfT, Bool.and_eq_true]

theorem wfL_append (l₁ l₂ : List (String × PTree)) :
    wfL (l₁ ++ l₂) = (wfL l₁ && wfL l₂) := by
  induction l₁ with
  | nil => simp [wfL]
  | cons p rest ih =>
    match p with
    | (k, t) => simp [wfL, ih, Bool.and_assoc]

end LookupLemmas

section MergeLemmas

theorem mergeT_leaf_right (a : PTree) : mergeT a .leaf = .leaf := by
  cases a <;> rfl

theorem mergeOld_eq_map (d s : List (String × PTree)) :
    mergeOld d s = d.map (fun p =>
      (p.1, match lookupA p.1 s with
            | some sv => mergeT p.2 sv
            | none => p.2)) := by
  induction d with
  | nil => rfl
  | cons p rest ih =>
    match p with
    | (k, v) => simp [mergeOld, ih]

theorem mergeOld_congr {d : List (String × PTree)} (s₁ s₂ : List (String × PTree))
    (h : ∀ p ∈ d,
      (match lookupA p.1 s₁ with
       | some sv => mergeT p.2 sv
       | none => p.2) =
      (match lookupA p.1 s₂ with
       | some sv => mergeT p.2 sv
       | none => p.2)) :
    mergeOld d s₁ = mergeOld d s₂ := by
  induction d with
  | nil => rfl
  | cons p rest ih =>
    match p with
    | (k, v) =>
      simp only [mergeOld]
      refine congrArg₂ List.cons ?_ (ih (fun q hq => h q (List.mem_cons_of_mem _ hq)))
      exact congrArg (Prod.mk k) (h (k, v) (List.mem_cons_self _ _))

theorem lookupA_mergeOld (k : String) (d s : List (String × PTree)) :
    lookupA k (mergeOld d s) =
      match lookupA k d with
      | some v => some (match lookupA k s with
                        | some sv => mergeT v sv
                        | none => v)
      | none => none := by
  induction d with
  | nil => rfl
  | cons p rest ih =>
    match p with
    | (k₁, v₁) =>
      by_cases hk : k₁ = k
      · subst hk
        simp [mergeOld, lookupA]
      · simp [mergeOld, lookupA, hk, ih]

theorem kget_mergeT_node (d s : List (String × PTree)) (k : String) :
    kget (mergeT (.node d) (.node s)) k =
      match lookupA k d, lookupA k s with
      | some v, some sv => some (mergeT v sv)
      | some v, none => some v
      | none, some sv => some sv
      | none, none => none := by
  show lookupA k (mergeOld d s ++ s.filter (fun q => (lookupA q.1 d).isNone)) = _
  rw [lookupA_append, lookupA_mergeOld,
      lookupA_filter_key (fun key => (lookupA key d).isNone)]
  cases hd : lookupA k d <;> cases hs : lookupA k s <;> simp [hd, hs, Option.isNone]

theorem mergeT_empty_left (t : PTree) : mergeT (.node []) t = t := by
  cases t with
  | leaf => rfl
  | node s =>
    show PTree.node (mergeOld [] s ++ s.filter (fun q => (lookupA q.1 []).isNone)) = _
    have h1 : mergeOld [] s = [] := rfl
    have h2 : ∀ u : List (String × PTree),
        u.filter (fun q => (lookupA q.1 ([] : List (String × PTree))).isNone) = u := by
      intro u
      induction u with
      | nil => rfl
      | cons a tl ih => simp [List.filter_cons, lookupA, ih]
    rw [h1, h2, List.nil_append]

theorem mergeT_self : ∀ {t : PTree}, wfT t = true → mergeT t t = t := by
  intro t
  induction t using PTree.myInd with
  | hleaf => intro _; rfl
  | hnode c ih =>
    intro hwf
    rw [wfT_node_iff] at hwf
    obtain ⟨hnd, hwl⟩ := hwf
    show PTree.node (mergeOld c c ++ c.filter (fun q => (lookupA q.1 c).isNone)) = _
    have h2 : c.filter (fun q => (lookupA q.1 c).isNone) = [] := by
      rw [List.filter_eq_nil_iff]
      intro q hq
      simp only [Option.isNone_iff_eq_none]
      intro hnone
      have hs := lookupA_isSome_of_mem (show (q.1, q.2) ∈ c from hq)
      rw [hnone] at hs
      exact Bool.noConfusion hs
    have h1 : mergeOld c c = c := by
      rw [mergeOld_eq_map]
      have hmap : ∀ p ∈ c, (p.1, match lookupA p.1 c with
            | some sv => mergeT p.2 sv
            | none => p.2) = p := by
        intro p hp
        rw [nodupKeys_lookupA hnd (show (p.1, p.2) ∈ c from hp)]
        have hwt : wfT p.2 = true := (wfL_iff_mem c).mp hwl p.1 p.2 (show (p.1, p.2) ∈ c from hp)
        show (p.1, mergeT p.2 p.2) = p
        rw [ih p.1 p.2 (show (p.1, p.2) ∈ c from hp) hwt]
      calc c.map (fun p => (p.1, match lookupA p.1 c with
            | some sv => mergeT p.2 sv
            | none => p.2))
          = c.map (fun p => p) := List.map_congr_left hmap
        _ = c := by simp
    rw [h1, h2, List.append_nil]

theorem mergeT_absorb : ∀ {a : PTree}, wfT a = true → ∀ {b : PTree}, wfT b = true →
    mergeT a (mergeT a b) = mergeT a b := by
  intro a
  induction a using PTree.myInd with
  | hleaf =>
    intro _ b _
    cases b <;> rfl
  | hnode d ih =>
    intro ha b hb
    cases b with
    | leaf => rfl
    | node s =>
      rw [wfT_node_iff] at ha
      obtain ⟨hnd, hwl⟩ := ha
      rw [wfT_node_iff] at hb
      obtain ⟨hnds, hwls⟩ := hb
      show mergeT (.node d)
        (.node (mergeOld d s ++ s.filter (fun q => (lookupA q.1 d).isNone))) = _
      show PTree.node
        (mergeOld d (mergeOld d s ++ s.filter (fun q => (lookupA q.1 d).isNone)) ++
         (mergeOld d s ++ s.filter (fun q => (lookupA q.1 d).isNone)).filter
           (fun q => (lookupA q.1 d).isNone)) = _
      have hfilter : (mergeOld d s ++ s.filter (fun q => (lookupA q.1 d).isNone)).filter
          (fun q => (lookupA q.1 d).isNone) = s.filter (fun q => (lookupA q.1 d).isNone) := by
        rw [List.filter_append]
        have h1 : (mergeOld d s).filter (fun q => (lookupA q.1 d).isNone) = [] := by
          rw [List.filter_eq_nil_iff]
          intro q hq
          rw [mergeOld_eq_map] at hq
          obtain ⟨p, hp, hpq⟩ := List.mem_map.mp hq
          have hq1 : q.1 = p.1 := by rw [← hpq]
          rw [hq1]
          have := lookupA_isSome_of_mem (show (p.1, p.2) ∈ d from hp)
          simp only [Bool.not_eq_true, Option.isNone_eq_false_iff]
          exact this
        rw [h1, List.nil_append, List.filter_filter]
        apply List.filter_congr
        intro q _
        simp
      have hold : mergeOld d (mergeOld d s ++ s.filter (fun q => (lookupA q.1 d).isNone)) =
          mergeOld d s := by
        apply mergeOld_congr
        intro p hp
        have hpd : lookupA p.1 d = some p.2 :=
          nodupKeys_lookupA hnd (show (p.1, p.2) ∈ d from hp)
        have hlk : lookupA p.1 (mergeOld d s ++ s.filter (fun q => (lookupA q.1 d).isNone)) =
            some (match lookupA p.1 s with
                  | some sv => mergeT p.2 sv
                  | none => p.2) := by
          rw [lookupA_append, lookupA_mergeOld, hpd]
        rw [hlk]
        have hwp : wfT p.2 = true :=
          (wfL_iff_mem d).mp hwl p.1 p.2 (show (p.1, p.2) ∈ d from hp)
        cases hs : lookupA p.1 s with
        | none =>
          show mergeT p.2 p.2 = p.2
          exact mergeT_self hwp
        | some sv =>
          have hwsv : wfT sv = true := (wfL_iff_mem s).mp hwls p.1 sv (lookupA_mem hs)
          show mergeT p.2 (mergeT p.2 sv) = mergeT p.2 sv
          exact ih p.1 p.2 (show (p.1, p.2) ∈ d from hp) hwp hwsv
      rw [hfilter, hold]
      rfl

theorem wfT_mergeT : ∀ {a : PTree}, wfT a = true → ∀ {b : PTree}, wfT b = true →
    wfT (mergeT a b) = true := by
  intro a
  induction a using PTree.myInd with
  | hleaf =>
    intro _ b hb
    cases b with
    | leaf => rfl
    | node s => exact hb
  | hnode d ih =>
    intro ha b hb
    cases b with
    | leaf => rfl
    | node s =>
      rw [wfT_node_iff] at ha hb
      obtain ⟨hnd, hwl⟩ := ha
      obtain ⟨hnds, hwls⟩ := hb
      show wfT (.node (mergeOld d s ++ s.filter (fun q => (lookupA q.1 d).isNone))) = true
      rw [wfT_node_iff]
      constructor
      · rw [nodupKeys_iff, List.map_append]
        have hkeys : (mergeOld d s).map Prod.fst = d.map Prod.fst := by
          rw [mergeOld_eq_map, List.map_map]
          rfl
        rw [hkeys]
        rw [List.nodup_append]
        refine ⟨(nodupKeys_iff d).mp hnd, ?_, ?_⟩
        · exact ((nodupKeys_iff s).mp hnds).sublist
            (List.Sublist.map Prod.fst (List.filter_sublist s))
        · intro x hx
          intro hx₂
          obtain ⟨q, hq, hq₁⟩ := List.mem_map.mp hx₂
          have hq₂ := List.mem_filter.mp hq
          rw [hq₁] at hq₂
          have := hq₂.2
          rw [Option.isNone_iff_eq_none, lookupA_eq_none_iff] at this
          exact this hx
      · rw [wfL_append, Bool.and_eq_true]
        constructor
        · rw [wfL_iff_mem]
          intro k t hm
          rw [mergeOld_eq_map] at hm
          obtain ⟨p, hp, hpq⟩ := List.mem_map.mp hm
          obtain ⟨h₁, h₂⟩ := Prod.mk.injEq .. ▸ hpq
          have hwp : wfT p.2 = true := (wfL_iff_mem d).mp hwl p.1 p.2 (by simpa using hp)
          cases hs : lookupA p.1 s with
          | none =>
            rw [hs] at h₂
            simp only at h₂
            rw [← h₂]
            exact hwp
          | some sv =>
            rw [hs] at h₂
            simp only at h₂
            have hwsv : wfT sv = true := (wfL_iff_mem s).mp hwls p.1 sv (lookupA_mem hs)
            rw [← h₂]
            exact ih p.1 p.2 (by simpa using hp) hwp hwsv
        · rw [wfL_iff_mem]
          intro k t hm
          have := List.mem_filter.mp hm
          exact (wfL_iff_mem s).mp hwls k t this.1

theorem leafAt_mergeT : ∀ (p : List String) (a b : PTree), leafAt b p = true →
    leafAt (mergeT a b) p = true := by
  intro p
  induction p with
  | nil =>
    intro a b hb
    cases b with
    | leaf => rw [mergeT_leaf_right]; rfl
    | node s => exact absurd hb (by simp [leafAt])
  | cons k rest ih =>
    intro a b hb
    cases b with
    | leaf => exact absurd hb (by simp [leafAt])
    | node s =>
      rw [leafAt] at hb
      cases hs : lookupA k s with
      | none => rw [hs] at hb; exact Bool.noConfusion hb
      | some sv =>
        rw [hs] at hb
        simp only at hb
        cases a with
        | leaf =>
          show leafAt (.node s) (k :: rest) = true
          rw [leafAt, hs]
          exact hb
        | node d =>
          have hk := kget_mergeT_node d s k
          cases hmerged : mergeT (.node d) (.node s) with
          | leaf => rw [hmerged] at hk; exact absurd hk (by cases lookupA k d <;> simp [kget, hs])
          | node L =>
            rw [hmerged] at hk
            rw [leafAt]
            rw [kget] at hk
            cases hd : lookupA k d with
            | none =>
              rw [hd, hs] at hk
              rw [hk]
              exact hb
            | some v =>
              rw [hd, hs] at hk
              rw [hk]
              exact ih v sv hb

end MergeLemmas

section CacheLemmas

theorem cacheGet_mem {c : Cache} {id : String} {r : Role} (h : cacheGet c id = some r) :
    r ∈ c := by
  unfold cacheGet at h
  exact List.mem_of_find?_eq_some h

theorem cacheGet_id {c : Cache} {id : String} {r : Role} (h : cacheGet c id = some r) :
    r.id = id := by
  unfold cacheGet at h
  have := List.find?_some h
  simpa using this

theorem wfCache_mem {c : Cache} (hwf : wfCache c = true) {r : Role} (hr : r ∈ c) :
    wfT r.permissions = true := by
  unfold wfCache at hwf
  rw [List.all_eq_true] at hwf
  exact hwf r hr

theorem cacheGet_cons (r : Role) (rest : Cache) (id : String) :
    cacheGet (r :: rest) id = if r.id = id then some r else cacheGet rest id := by
  unfold cacheGet
  by_cases h : r.id = id
  · rw [if_pos h, List.find?_cons_of_pos _ (by simp [h])]
  · rw [if_neg h, List.find?_cons_of_neg _ (by simp [h])]

end CacheLemmas

section PresolveLemmas

theorem goPre_mono {pres pres₁ : Cache → String → Option PTree}
    (h : ∀ c i t, pres c i = some t → pres₁ c i = some t) :
    ∀ (l : List String) (c : Cache) (acc t : PTree),
      goPre pres c l acc = some t → goPre pres₁ c l acc = some t := by
  intro l
  induction l with
  | nil => intro c acc t hg; exact hg
  | cons i rest ih =>
    intro c acc t hg
    rw [goPre] at hg ⊢
    cases hcg : cacheGet c i with
    | none =>
      rw [hcg] at hg
      exact ih c acc t hg
    | some r =>
      rw [hcg] at hg
      cases hp : pres c i with
      | none => rw [hp] at hg; exact Option.noConfusion hg
      | some u =>
        rw [hp] at hg
        rw [h c i u hp]
        exact ih c _ t hg

theorem presolve_mono : ∀ (n : Nat) (c : Cache) (id : String) (t : PTree),
    presolve n c id = some t → presolve (n + 1) c id = some t := by
  intro n
  induction n with
  | zero => intro c id t h; exact absurd h (by simp [presolve])
  | succ n ih =>
    intro c id t h
    rw [presolve] at h
    rw [presolve]
    cases hcg : cacheGet c id with
    | none => rw [hcg] at h; exact Option.noConfusion h
    | some role =>
      rw [hcg] at h
      dsimp only at h ⊢
      cases hgo : goPre (presolve n) c role.inherit (.node []) with
      | none => rw [hgo] at h; exact Option.noConfusion h
      | some res =>
        rw [hgo] at h
        rw [goPre_mono (fun c i t => ih c i t) role.inherit c (.node []) res hgo]
        exact h

theorem presolve_mono_le {m n : Nat} (hle : m ≤ n) {c : Cache} {id : String} {t : PTree}
    (h : presolve m c id = some t) : presolve n c id = some t := by
  induction hle with
  | refl => exact h
  | step hle ih => exact presolve_mono _ c id t ih

theorem presolve_det {m n : Nat} {c : Cache} {id : String} {t u : PTree}
    (hm : presolve m c id = some t) (hn : presolve n c id = some u) : t = u := by
  rcases Nat.le_total m n with h | h
  · have := presolve_mono_le h hm
    rw [this] at hn
    exact Option.some.inj hn
  · have := presolve_mono_le h hn
    rw [this] at hm
    exact (Option.some.inj hm).symm

theorem goPre_ext {pres pres₁ : Cache → String → Option PTree} {c c₁ : Cache}
    (hcg : ∀ i, cacheGet c i = cacheGet c₁ i)
    (hp : ∀ i, pres c i = pres₁ c₁ i) :
    ∀ (l : List String) (acc : PTree),
      goPre pres c l acc = goPre pres₁ c₁ l acc := by
  intro l
  induction l with
  | nil => intro acc; rfl
  | cons i rest ih =>
    intro acc
    rw [goPre, goPre, ← hcg i, ← hp i]
    cases cacheGet c i with
    | none => exact ih acc
    | some r =>
      cases pres c i with
      | none => rfl
      | some t => exact ih _

theorem presolve_ext {c c₁ : Cache} (h : ∀ i, cacheGet c i = cacheGet c₁ i) :
    ∀ (n : Nat) (id : String), presolve n c id = presolve n c₁ id := by
  intro n
  induction n with
  | zero => intro id; rfl
  | succ n ih =>
    intro id
    rw [presolve, presolve, ← h id]
    cases cacheGet c id with
    | none => rfl
    | some role =>
      dsimp only
      rw [goPre_ext h (fun i => ih i) role.inherit (.node [])]

theorem presolve_wf : ∀ (n : Nat) {c : Cache}, wfCache c = true →
    ∀ {id : String} {t : PTree}, presolve n c id = some t → wfT t = true := by
  intro n
  induction n with
  | zero => intro c _ id t h; exact absurd h (by simp [presolve])
  | succ n ih =>
    intro c hwf id t h
    have hgo : ∀ (l : List String) (acc res : PTree), wfT acc = true →
        goPre (presolve n) c l acc = some res → wfT res = true := by
      intro l
      induction l with
      | nil =>
        intro acc res hacc hg
        rw [goPre] at hg
        obtain rfl := Option.some.inj hg
        exact hacc
      | cons i rest ihl =>
        intro acc res hacc hg
        rw [goPre] at hg
        cases hcg : cacheGet c i with
        | none => rw [hcg] at hg; exact ihl acc res hacc hg
        | some r =>
          rw [hcg] at hg
          cases hp : presolve n c i with
          | none => rw [hp] at hg; exact Option.noConfusion hg
          | some u =>
            rw [hp] at hg
            exact ihl _ res (wfT_mergeT hacc (ih hwf hp)) hg
    rw [presolve] at h
    cases hcg : cacheGet c id with
    | none => rw [hcg] at h; exact Option.noConfusion h
    | some role =>
      rw [hcg] at h
      dsimp only at h
      cases hgores : goPre (presolve n) c role.inherit (.node []) with
      | none => rw [hgores] at h; exact Option.noConfusion h
      | some res =>
        rw [hgores] at h
        obtain rfl := Option.some.inj h
        have hres : wfT res = true := hgo role.inherit (.node []) res rfl hgores
        exact wfT_mergeT hres (wfCache_mem hwf (cacheGet_mem hcg))

end PresolveLemmas

section EvolvedLemmas

theorem RoleStep_refl (c₀ : Cache) (r : Role) : RoleStep c₀ r r :=
  ⟨rfl, rfl, rfl, rfl, Or.inl rfl⟩

theorem RoleStep_trans {c₀ : Cache} {r₁ r₂ r₃ : Role}
    (h₁ : RoleStep c₀ r₁ r₂) (h₂ : RoleStep c₀ r₂ r₃) : RoleStep c₀ r₁ r₃ := by
  obtain ⟨hid, hd, hi, hc, hp⟩ := h₂
  obtain ⟨hid₁, hd₁, hi₁, hc₁, hp₁⟩ := h₁
  refine ⟨hid.trans hid₁, hd.trans hd₁, hi.trans hi₁, hc.trans hc₁, ?_⟩
  rcases hp with h | h
  · rcases hp₁ with h₁ | h₁
    · exact Or.inl (h.trans h₁)
    · obtain ⟨m, hm⟩ := h₁
      exact Or.inr ⟨m, by rw [hid, h]; exact hm⟩
  · exact Or.inr h

theorem Evolved_refl (c₀ c : Cache) : Evolved c₀ c c := by
  unfold Evolved
  induction c with
  | nil => exact List.Forall₂.nil
  | cons r rest ih => exact List.Forall₂.cons (RoleStep_refl c₀ r) ih

theorem Evolved_trans {c₀ a b c : Cache} (h₁ : Evolved c₀ a b) (h₂ : Evolved c₀ b c) :
    Evolved c₀ a c := by
  unfold Evolved at h₁ h₂ ⊢
  induction h₁ generalizing c with
  | nil =>
    cases h₂
    exact List.Forall₂.nil
  | cons hrel htail ih =>
    cases h₂ with
    | cons hrel₂ htail₂ =>
      exact List.Forall₂.cons (RoleStep_trans hrel hrel₂) (ih htail₂)

theorem Evolved_cacheGet {c₀ c c₁ : Cache} (h : Evolved c₀ c c₁) (id : String) :
    (cacheGet c id = none ∧ cacheGet c₁ id = none) ∨
    (∃ r r₁, cacheGet c id = some r ∧ cacheGet c₁ id = some r₁ ∧ RoleStep c₀ r r₁) := by
  unfold Evolved at h
  induction h with
  | nil => exact Or.inl ⟨rfl, rfl⟩
  | @cons r r₁ rest rest₁ hrel htail ih =>
    rw [cacheGet_cons, cacheGet_cons]
    have hid : r₁.id = r.id := hrel.1
    by_cases hcase : r.id = id
    · exact Or.inr ⟨r, r₁, by rw [if_pos hcase],
        by rw [if_pos (by rw [hid]; exact hcase)], hrel⟩
    · rw [if_neg hcase, if_neg (by rw [hid]; exact hcase)]
      exact ih

theorem Evolved_cacheSet_self {c₀ c₁ : Cache} {id : String} {role₁ : Role}
    (hget : cacheGet c₁ id = some role₁) {t : PTree}
    (hres : ∃ m, presolve m c₀ id = some t) :
    Evolved c₀ c₁ (cacheSet c₁ { role₁ with permissions := t }) := by
  have hid : role₁.id = id := cacheGet_id hget
  induction c₁ with
  | nil => exact absurd hget (by simp [cacheGet])
  | cons r rest ih =>
    rw [cacheGet_cons] at hget
    unfold cacheSet
    by_cases hcase : r.id = ({ role₁ with permissions := t } : Role).id
    · have hcase₁ : r.id = id := by
        rw [hcase]
        exact hid
      rw [if_pos hcase₁] at hget
      obtain rfl := Option.some.inj hget
      rw [if_pos hcase]
      refine List.Forall₂.cons ?_ (Evolved_refl c₀ rest)
      refine ⟨rfl, rfl, rfl, rfl, Or.inr ?_⟩
      obtain ⟨m, hm⟩ := hres
      exact ⟨m, by
        show presolve m c₀ r.id = some t
        rw [hid]
        exact hm⟩
    · have hne : r.id ≠ id := by
        intro hh
        rw [if_pos hh] at hget
        obtain rfl := Option.some.inj hget
        exact hcase rfl
      rw [if_neg hne] at hget
      rw [if_neg hcase]
      exact List.Forall₂.cons (RoleStep_refl c₀ r) (ih hget)

end EvolvedLemmas

section MainResolution

theorem goPre_wf (n : Nat) {c : Cache} (hwf : wfCache c = true) :
    ∀ (l : List String) (acc res : PTree), wfT acc = true →
      goPre (presolve n) c l acc = some res → wfT res = true := by
  intro l
  induction l with
  | nil =>
    intro acc res hacc hg
    rw [goPre] at hg
    obtain rfl := Option.some.inj hg
    exact hacc
  | cons i rest ih =>
    intro acc res hacc hg
    rw [goPre] at hg
    cases hcg : cacheGet c i with
    | none => rw [hcg] at hg; exact ih acc res hacc hg
    | some r =>
      rw [hcg] at hg
      cases hp : presolve n c i with
      | none => rw [hp] at hg; exact Option.noConfusion hg
      | some u =>
        rw [hp] at hg
        exact ih _ res (wfT_mergeT hacc (presolve_wf n hwf hp)) hg

theorem goInherit_presolve (n : Nat) (c₀ : Cache)
    (IH : ∀ c, Evolved c₀ c₀ c → ∀ id,
      match presolve n c₀ id with
      | none => generatePermissionTree n c id = none
      | some t => ∃ c₁, generatePermissionTree n c id = some (t, c₁) ∧ Evolved c₀ c c₁) :
    ∀ (l : List String) (c : Cache), Evolved c₀ c₀ c → ∀ (acc : PTree),
      match goPre (presolve n) c₀ l acc with
      | none => goInherit (generatePermissionTree n) c l acc = none
      | some res => ∃ c₁, goInherit (generatePermissionTree n) c l acc = some (res, c₁) ∧
          Evolved c₀ c c₁ := by
  intro l
  induction l with
  | nil =>
    intro c hev acc
    exact ⟨c, rfl, Evolved_refl c₀ c⟩
  | cons i rest ih =>
    intro c hev acc
    rcases Evolved_cacheGet hev i with ⟨hc₀, hc⟩ | ⟨r₀, r, hc₀, hc, hstep⟩
    · have hgo_eq : goPre (presolve n) c₀ (i :: rest) acc = goPre (presolve n) c₀ rest acc := by
        rw [goPre, hc₀]
      have hgi_eq : goInherit (generatePermissionTree n) c (i :: rest) acc =
          goInherit (generatePermissionTree n) c rest acc := by
        rw [goInherit, hc]
      rw [hgo_eq, hgi_eq]
      exact ih c hev acc
    · have hgo_eq : goPre (presolve n) c₀ (i :: rest) acc =
          match presolve n c₀ i with
          | none => none
          | some t => goPre (presolve n) c₀ rest (mergeT acc t) := by
        rw [goPre, hc₀]
      have hgi_eq : goInherit (generatePermissionTree n) c (i :: rest) acc =
          match generatePermissionTree n c i with
          | none => none
          | some (t, c₁) => goInherit (generatePermissionTree n) c₁ rest (mergeT acc t) := by
        rw [goInherit, hc]
      have hIH := IH c hev i
      cases hp : presolve n c₀ i with
      | none =>
        rw [hp] at hIH
        rw [hgo_eq, hp]
        dsimp only
        rw [hgi_eq, hIH]
      | some t =>
        rw [hp] at hIH
        obtain ⟨c₁, hgen, hev₁⟩ := hIH
        rw [hgo_eq, hp]
        dsimp only
        have hev₀₁ : Evolved c₀ c₀ c₁ := Evolved_trans hev hev₁
        have htail := ih c₁ hev₀₁ (mergeT acc t)
        cases hgr : goPre (presolve n) c₀ rest (mergeT acc t) with
        | none =>
          rw [hgr] at htail
          dsimp only
          rw [hgi_eq, hgen]
          exact htail
        | some res =>
          rw [hgr] at htail
          obtain ⟨c₂, hgi₂, hev₂⟩ := htail
          dsimp only
          refine ⟨c₂, ?_, Evolved_trans hev₁ hev₂⟩
          rw [hgi_eq, hgen]
          exact hgi₂

/-- The central resolution theorem: from any cache evolved from the original
one, generatePermissionTree computes exactly the pure resolution presolve of
the original cache (or diverges exactly when presolve runs out of fuel), and
the cache it returns is again an evolution: every rewritten permission tree
is a resolved tree of the original cache. -/
theorem genTree_presolve : ∀ (n : Nat) (c₀ : Cache), wfCache c₀ = true →
    ∀ (c : Cache), Evolved c₀ c₀ c → ∀ (id : String),
      match presolve n c₀ id with
      | none => generatePermissionTree n c id = none
      | some t => ∃ c₁, generatePermissionTree n c id = some (t, c₁) ∧ Evolved c₀ c c₁ := by
  intro n
  induction n with
  | zero =>
    intro c₀ hwf c hev id
    show generatePermissionTree 0 c id = none
    rfl
  | succ n ihn =>
    intro c₀ hwf c hev id
    have IH := ihn c₀ hwf
    rcases Evolved_cacheGet hev id with ⟨hg₀, hg⟩ | ⟨role₀, role, hg₀, hg, hstep⟩
    · have h₁ : presolve (n + 1) c₀ id = none := by rw [presolve, hg₀]
      rw [h₁]
      dsimp only
      rw [generatePermissionTree, hg]
    · have hps : presolve (n + 1) c₀ id =
          match goPre (presolve n) c₀ role₀.inherit (.node []) with
          | none => none
          | some res => some (mergeT res role₀.permissions) := by
        rw [presolve, hg₀]
      have hinherit : role.inherit = role₀.inherit := hstep.2.2.1
      have hgt : generatePermissionTree (n + 1) c id =
          match goInherit (generatePermissionTree n) c role₀.inherit (.node []) with
          | none => none
          | some (res, c₁) =>
            match cacheGet c₁ id with
            | none => none
            | some role₁ => some (mergeT res role₁.permissions,
                cacheSet c₁ { role₁ with permissions := mergeT res role₁.permissions }) := by
        rw [generatePermissionTree, hg]
        dsimp only
        rw [hinherit]
      have hgo := goInherit_presolve n c₀ IH role₀.inherit c hev (.node [])
      cases hgr : goPre (presolve n) c₀ role₀.inherit (.node []) with
      | none =>
        rw [hgr] at hgo
        rw [hps, hgr]
        dsimp only
        rw [hgt, hgo]
      | some res =>
        rw [hgr] at hgo
        obtain ⟨c₁, hgi, hev₁⟩ := hgo
        rw [hps, hgr]
        dsimp only
        have hev₀₁ : Evolved c₀ c₀ c₁ := Evolved_trans hev hev₁
        rcases Evolved_cacheGet hev₀₁ id with ⟨hgg, _⟩ | ⟨r₀x, role₁, hgg₀, hg₁, hstep₁⟩
        · rw [hg₀] at hgg
          exact Option.noConfusion hgg
        · rw [hg₀] at hgg₀
          obtain rfl := Option.some.inj hgg₀
          have hid₁ : role₁.id = id := cacheGet_id hg₁
          have hwf_res : wfT res = true := goPre_wf n hwf role₀.inherit (.node []) res rfl hgr
          have hwf₀ : wfT role₀.permissions = true := wfCache_mem hwf (cacheGet_mem hg₀)
          have hp₁ : presolve (n + 1) c₀ id = some (mergeT res role₀.permissions) := by
            rw [hps, hgr]
          have hfinal : mergeT res role₁.permissions = mergeT res role₀.permissions := by
            rcases hstep₁.2.2.2.2 with hsame | ⟨m, hm⟩
            · rw [hsame]
            · rw [hid₁] at hm
              have heq : role₁.permissions = mergeT res role₀.permissions :=
                presolve_det hm hp₁
              rw [heq]
              exact mergeT_absorb hwf_res hwf₀
          refine ⟨cacheSet c₁ { role₁ with permissions := mergeT res role₁.permissions },
            ?_, ?_⟩
          · rw [hgt, hgi]
            dsimp only
            rw [hg₁]
            dsimp only
            rw [hfinal]
          · apply Evolved_trans hev₁
            apply Evolved_cacheSet_self hg₁
            exact ⟨n + 1, by rw [hp₁, hfinal]⟩

end MainResolution

section ClaimC8

/-- C8: inheritance resolution is idempotent.  Whenever a first invocation
of generatePermissionTree terminates on a well-formed registry cache, a
second invocation of the same role against the cache the first one left
behind terminates as well and returns a structurally identical tree. -/
theorem C8_resolution_idempotent (n : Nat) (c : Cache) (id : String)
    (hwf : wfCache c = true) (h : (generatePermissionTree n c id).isSome = true) :
    ∃ t c₁ c₂, generatePermissionTree n c id = some (t, c₁) ∧
      generatePermissionTree n c₁ id = some (t, c₂) := by
  have hmain := genTree_presolve n c hwf c (Evolved_refl c c) id
  cases hp : presolve n c id with
  | none =>
    rw [hp] at hmain
    rw [hmain] at h
    exact Bool.noConfusion h
  | some t =>
    rw [hp] at hmain
    obtain ⟨c₁, hg₁, hev₁⟩ := hmain
    have hmain₂ := genTree_presolve n c hwf c₁ hev₁ id
    rw [hp] at hmain₂
    obtain ⟨c₂, hg₂, _⟩ := hmain₂
    exact ⟨t, c₁, c₂, hg₁, hg₂⟩

/-- C8, witness: resolving the editor role (which inherits viewer) twice on
a concrete two-role cache returns the same tree both times. -/
theorem C8_resolution_idempotent_witness :
    ∃ t c₁ c₂, generatePermissionTree 2 demoCache "editor" = some (t, c₁) ∧
      generatePermissionTree 2 c₁ "editor" = some (t, c₂) :=
  C8_resolution_idempotent 2 demoCache "editor" (by decide) (by decide)

end ClaimC8

section ClaimC7

theorem getPath_mergeT_conflict : ∀ (p : List String) (a b v w : PTree),
    getPath b p = some v → getPath a p = some w → (v = PTree.leaf ∨ w = PTree.leaf) →
    getPath (mergeT a b) p = some v := by
  intro p
  induction p with
  | nil =>
    intro a b v w hb ha hvw
    rw [getPath] at hb ha
    obtain rfl := Option.some.inj hb
    obtain rfl := Option.some.inj ha
    rcases hvw with h | h
    · subst h
      rw [mergeT_leaf_right]
      rfl
    · subst h
      cases b <;> rfl
  | cons k rest ih =>
    intro a b v w hb ha hvw
    cases b with
    | leaf => exact absurd hb (by rw [getPath]; simp)
    | node s =>
      cases a with
      | leaf => exact absurd ha (by rw [getPath]; simp)
      | node d =>
        rw [getPath] at hb ha
        cases hs : lookupA k s with
        | none => rw [hs] at hb; exact Option.noConfusion hb
        | some sv =>
          rw [hs] at hb
          cases hd : lookupA k d with
          | none => rw [hd] at ha; exact Option.noConfusion ha
          | some dv =>
            rw [hd] at ha
            have hk := kget_mergeT_node d s k
            rw [hd, hs] at hk
            cases hm : mergeT (.node d) (.node s) with
            | leaf => rw [hm] at hk; exact absurd hk (by simp [kget])
            | node L =>
              rw [hm] at hk
              rw [kget] at hk
              rw [getPath, hk]
              exact ih dv sv v w hb ha hvw

/-- C7: the resolved permission tree gives precedence to the declared
permissions of the role itself.  Whenever resolution terminates the
resulting tree is the merge of the inherited trees with the declared tree
on top; every leaf marker the declaration carries survives at its exact
path, and at any path where the declared tree and the merged inherited
tree conflict (at least one of the two holds the literal true there) the
resolved tree holds exactly what the declaration produces. -/
theorem C7_own_declaration_wins (n : Nat) (c : Cache) (id : String) (r : Role)
    (hwf : wfCache c = true) (hr : cacheGet c id = some r)
    (h : (generatePermissionTree n c id).isSome = true) :
    ∃ t c₁ res, generatePermissionTree n c id = some (t, c₁) ∧
      t = mergeT res r.permissions ∧
      (∀ path, leafAt r.permissions path = true → leafAt t path = true) ∧
      (∀ path v w, getPath r.permissions path = some v → getPath res path = some w →
        (v = PTree.leaf ∨ w = PTree.leaf) → getPath t path = some v) := by
  have hmain := genTree_presolve n c hwf c (Evolved_refl c c) id
  cases hp : presolve n c id with
  | none =>
    rw [hp] at hmain
    rw [hmain] at h
    exact Bool.noConfusion h
  | some t =>
    rw [hp] at hmain
    obtain ⟨c₁, hg₁, _⟩ := hmain
    cases n with
    | zero => exact absurd hp (by simp [presolve])
    | succ m =>
      rw [presolve, hr] at hp
      dsimp only at hp
      cases hgo : goPre (presolve m) c r.inherit (.node []) with
      | none => rw [hgo] at hp; exact Option.noConfusion hp
      | some res =>
        rw [hgo] at hp
        have ht : mergeT res r.permissions = t := Option.some.inj hp
        refine ⟨t, c₁, res, hg₁, ht.symm, ?_, ?_⟩
        · intro path hleaf
          rw [← ht]
          exact leafAt_mergeT path res r.permissions hleaf
        · intro path v w hv hw hc
          rw [← ht]
          exact getPath_mergeT_conflict path res r.permissions v w hv hw hc

/-- C7, witness at the two-role cache: the editor declaration carries a
leaf at posts.edit and the resolved tree keeps it, with the conflict rule
available at every path. -/
theorem C7_own_declaration_wins_witness :
    ∃ t c₁ res, generatePermissionTree 2 demoCache "editor" = some (t, c₁) ∧
      t = mergeT res (mkRole editorDecl).permissions ∧
      (∀ path, leafAt (mkRole editorDecl).permissions path = true → leafAt t path = true) ∧
      (∀ path v w, getPath (mkRole editorDecl).permissions path = some v →
        getPath res path = some w →
        (v = PTree.leaf ∨ w = PTree.leaf) → getPath t path = some v) :=
  C7_own_declaration_wins 2 demoCache "editor" (mkRole editorDecl)
    (by decide) rfl (by decide)

end ClaimC7

section SetALemmas

theorem keys_setA {β : Type} (k : String) (v : β) (l : List (String × β)) :
    (setA k v l).map Prod.fst =
      if (lookupA k l).isSome then l.map Prod.fst else l.map Prod.fst ++ [k] := by
  induction l with
  | nil => simp [setA, lookupA]
  | cons p rest ih =>
    by_cases hk : p.1 = k
    · simp [setA, hk, lookupA]
    · simp only [setA, hk, if_false, List.map_cons, lookupA, ih]
      cases hl : lookupA k rest <;> simp [hl]

theorem nodupKeys_setA {β : Type} {k : String} {v : β} {l : List (String × β)}
    (h : nodupKeys l = true) : nodupKeys (setA k v l) = true := by
  rw [nodupKeys_iff, keys_setA]
  rw [nodupKeys_iff] at h
  cases hl : lookupA k l with
  | some w => simpa using h
  | none =>
    simp only [Option.isSome_none, Bool.false_eq_true, if_false]
    rw [lookupA_eq_none_iff] at hl
    simp [List.nodup_append, h, hl]

theorem mem_setA {β : Type} {k : String} {v : β} {l : List (String × β)} {p : String × β}
    (h : p ∈ setA k v l) : p = (k, v) ∨ p ∈ l := by
  induction l with
  | nil => simpa [setA] using h
  | cons q rest ih =>
    by_cases hk : q.1 = k
    · simp only [setA, hk, if_true] at h
      rcases List.mem_cons.mp h with h₁ | h₁
      · exact Or.inl h₁
      · exact Or.inr (List.mem_cons_of_mem _ h₁)
    · simp only [setA, hk, if_false] at h
      rcases List.mem_cons.mp h with h₁ | h₁
      · exact Or.inr (by rw [h₁]; exact List.mem_cons_self _ _)
      · rcases ih h₁ with h₂ | h₂
        · exact Or.inl h₂
        · exact Or.inr (List.mem_cons_of_mem _ h₂)

theorem nodupKeys_foldl_setA {β : Type} (entries : List (String × β))
    {acc : List (String × β)} (h : nodupKeys acc = true) :
    nodupKeys (entries.foldl (fun a q => setA q.1 q.2 a) acc) = true := by
  induction entries generalizing acc with
  | nil => exact h
  | cons e rest ih => exact ih (nodupKeys_setA h)

theorem nodupKeys_applyClaimVal {o : List (String × Bool)} (h : nodupKeys o = true)
    (cv : ClaimVal) : nodupKeys (applyClaimVal o cv) = true := by
  cases cv with
  | str s => exact nodupKeys_setA h
  | arr l =>
    show nodupKeys (l.foldl (fun acc v => setA v true acc) o) = true
    induction l generalizing o with
    | nil => exact h
    | cons x rest ih => exact ih (nodupKeys_setA h)
  | obj l => exact nodupKeys_foldl_setA l h

theorem nodupClaims_normalizeClaims (cs : List (String × ClaimVal)) :
    nodupClaims (normalizeClaims cs) = true := by
  unfold normalizeClaims
  suffices h : ∀ res : NClaims, nodupKeys res = true →
      (∀ p ∈ res, nodupKeys p.2 = true) →
      nodupClaims (cs.foldl
        (fun res p => setA p.1 (applyClaimVal ((lookupA p.1 res).getD []) p.2) res) res) = true by
    exact h [] rfl (by simp)
  induction cs with
  | nil =>
    intro res h₁ h₂
    unfold nodupClaims
    rw [List.foldl_nil, h₁, Bool.true_and, List.all_eq_true]
    intro p hp
    exact h₂ p hp
  | cons e rest ih =>
    intro res h₁ h₂
    rw [List.foldl_cons]
    apply ih
    · exact nodupKeys_setA h₁
    · intro p hp
      rcases mem_setA hp with h₃ | h₃
      · rw [h₃]
        apply nodupKeys_applyClaimVal
        cases hl : lookupA e.1 res with
        | none => rfl
        | some o => exact h₂ (e.1, o) (lookupA_mem hl)
      · exact h₂ p h₃

end SetALemmas

section IndexLemmas

theorem addVals_error_val {strict : Bool} {rid : String} :
    ∀ {kvs : List (String × Bool)} {claim : List (String × List String)} {e : JsErr},
      addVals strict rid kvs claim = .error e → e = .rbac "Claim already has role" := by
  intro kvs
  induction kvs with
  | nil => intro claim e h; exact absurd h (by simp [addVals])
  | cons p rest ih =>
    intro claim e h
    match p with
    | (v, b) =>
      rw [addVals] at h
      cases hl : lookupA v claim with
      | some l =>
        rw [hl] at h
        dsimp only at h
        by_cases hs : strict = true
        · rw [if_pos hs] at h
          exact (Except.error.inj h).symm
        · rw [if_neg hs] at h
          exact ih h
      | none =>
        rw [hl] at h
        dsimp only at h
        exact ih h

theorem lookupA_setA_isSome {β : Type} {x k : String} {v : β} {l : List (String × β)}
    (h : (lookupA x l).isSome = true) : (lookupA x (setA k v l)).isSome = true := by
  by_cases hk : k = x
  · rw [hk, lookupA_setA_self]
    rfl
  · rw [lookupA_setA_other hk]
    exact h

theorem addVals_ok (strict : Bool) (rid : String) :
    ∀ (kvs : List (String × Bool)) (claim : List (String × List String)),
      nodupKeys kvs = true →
      (strict = true → ∀ p ∈ kvs, lookupA p.1 claim = none) →
      ∃ claim', addVals strict rid kvs claim = .ok claim' ∧
        ∀ x, lookupA x claim' =
          if (lookupA x kvs).isSome then some ((lookupA x claim).getD [] ++ [rid])
          else lookupA x claim := by
  intro kvs
  induction kvs with
  | nil =>
    intro claim _ _
    exact ⟨claim, rfl, fun x => by simp [lookupA]⟩
  | cons p rest ih =>
    intro claim hnd hstrict
    match p with
    | (v₀, b) =>
      simp only [nodupKeys, Bool.and_eq_true] at hnd
      have hstep : addVals strict rid ((v₀, b) :: rest) claim =
          addVals strict rid rest (setA v₀ ((lookupA v₀ claim).getD [] ++ [rid]) claim) := by
        rw [addVals]
        cases hl : lookupA v₀ claim with
        | some l =>
          have : strict ≠ true := by
            intro hs
            have := hstrict hs (v₀, b) (List.mem_cons_self _ _)
            rw [this] at hl
            exact Option.noConfusion hl
          rw [Bool.eq_false_iff.mpr this]
          simp
        | none => simp
      rw [hstep]
      have hrest := ih (setA v₀ ((lookupA v₀ claim).getD [] ++ [rid]) claim) hnd.2
        (by
          intro hs q hq
          have hq₀ := hstrict hs q (List.mem_cons_of_mem _ hq)
          have hne : v₀ ≠ q.1 := by
            intro hh
            have : rest.any (fun r => r.1 == v₀) = true :=
              List.any_eq_true.mpr ⟨q, hq, by simp [hh]⟩
            simp [this] at hnd
          rw [lookupA_setA_other hne]
          exact hq₀)
      obtain ⟨claim', hok, hchar⟩ := hrest
      refine ⟨claim', hok, ?_⟩
      intro x
      rw [hchar x]
      by_cases hx : x = v₀
      · subst hx
        have hnotrest : lookupA x rest = none := by
          rw [lookupA_eq_none_iff]
          intro hmem
          obtain ⟨q, hq, hq₁⟩ := List.mem_map.mp hmem
          have : rest.any (fun r => r.1 == x) = true :=
            List.any_eq_true.mpr ⟨q, hq, by simp [hq₁]⟩
          simp [this] at hnd
        rw [hnotrest, lookupA_setA_self]
        simp [lookupA]
      · have hxne : v₀ ≠ x := fun h => hx h.symm
        rw [lookupA_setA_other hxne]
        have hcons : lookupA x ((v₀, b) :: rest) = lookupA x rest := by
          rw [lookupA, if_neg (fun h => hx h.symm)]
        rw [hcons]

theorem addVals_true_error {rid : String} :
    ∀ {kvs : List (String × Bool)} {claim : List (String × List String)},
      (∃ p ∈ kvs, (lookupA p.1 claim).isSome = true) →
      addVals true rid kvs claim = .error (.rbac "Claim already has role") := by
  intro kvs
  induction kvs with
  | nil =>
    intro claim h
    obtain ⟨p, hp, -⟩ := h
    exact absurd hp (List.not_mem_nil _)
  | cons q rest ih =>
    intro claim h
    match q with
    | (v₀, b) =>
      rw [addVals]
      cases hl : lookupA v₀ claim with
      | some l => simp
      | none =>
        obtain ⟨p, hp, hps⟩ := h
        rcases List.mem_cons.mp hp with h₁ | h₁
        · rw [h₁] at hps
          simp only at hps
          rw [hl] at hps
          exact Bool.noConfusion hps
        · exact ih ⟨p, h₁, lookupA_setA_isSome hps⟩

theorem addClaims_ok (strict : Bool) (rid : String) :
    ∀ (nc : NClaims) (idx : Idx),
      nodupClaims nc = true →
      (strict = true → ∀ k v, hasKVn nc k v = true → idxHas idx k v = false) →
      ∃ idx', addClaims strict rid nc idx = .ok idx' ∧
        (∀ k v, idxLook idx' k v =
          idxLook idx k v ++ (if hasKVn nc k v then [rid] else [])) ∧
        (∀ k v, idxHas idx' k v = (idxHas idx k v || hasKVn nc k v)) := by
  intro nc
  induction nc with
  | nil =>
    intro idx _ _
    exact ⟨idx, rfl, fun k v => by simp [hasKVn, lookupA],
      fun k v => by simp [hasKVn, lookupA]⟩
  | cons e rest ih =>
    intro idx hnd hstrict
    match e with
    | (key, kvs) =>
      unfold nodupClaims at hnd
      rw [Bool.and_eq_true, List.all_eq_true] at hnd
      obtain ⟨hkeys, hall⟩ := hnd
      simp only [nodupKeys, Bool.and_eq_true] at hkeys
      have hkvs_nd : nodupKeys kvs = true := by
        have := hall (key, kvs) (List.mem_cons_self _ _)
        simpa using this
      have hkey_notin : lookupA key rest = none := by
        rw [lookupA_eq_none_iff]
        intro hmem
        obtain ⟨q, hq, hq₁⟩ := List.mem_map.mp hmem
        have : rest.any (fun r => r.1 == key) = true :=
          List.any_eq_true.mpr ⟨q, hq, by simp [hq₁]⟩
        simp [this] at hkeys
      have hvals := addVals_ok strict rid kvs ((lookupA key idx).getD [])
        hkvs_nd
        (by
          intro hs p hp
          have hkv : hasKVn ((key, kvs) :: rest) key p.1 = true := by
            unfold hasKVn
            rw [lookupA, if_pos rfl]
            simp only [Option.getD_some]
            exact lookupA_isSome_of_mem (show (p.1, p.2) ∈ kvs from hp)
          have := hstrict hs key p.1 hkv
          unfold idxHas at this
          cases hlp : lookupA p.1 ((lookupA key idx).getD []) with
          | none => rfl
          | some w => rw [hlp] at this; exact Bool.noConfusion this)
      obtain ⟨claim', hvok, hvchar⟩ := hvals
      have hstep : addClaims strict rid ((key, kvs) :: rest) idx =
          addClaims strict rid rest (setA key claim' idx) := by
        rw [addClaims, hvok]
      rw [hstep]
      have hrest := ih (setA key claim' idx)
        (by
          unfold nodupClaims
          rw [Bool.and_eq_true, List.all_eq_true]
          exact ⟨hkeys.2, fun p hp => hall p (List.mem_cons_of_mem _ hp)⟩)
        (by
          intro hs k v hkv
          have hkne : k ≠ key := by
            intro hh
            unfold hasKVn at hkv
            rw [hh, hkey_notin] at hkv
            simp [lookupA] at hkv
          have : idxHas idx k v = false := by
            apply hstrict hs
            unfold hasKVn
            rw [lookupA, if_neg (fun h => hkne h.symm)]
            exact hkv
          unfold idxHas at this ⊢
          rw [lookupA_setA_other (fun h => hkne h.symm)]
          exact this)
      obtain ⟨idx', hcok, hchar, hhas⟩ := hrest
      refine ⟨idx', hcok, ?_, ?_⟩
      · intro k v
        rw [hchar k v]
        by_cases hk : k = key
        · subst hk
          have hrest_false : hasKVn rest k v = false := by
            unfold hasKVn
            rw [hkey_notin]
            simp [lookupA]
          rw [hrest_false]
          simp only [Bool.false_eq_true, if_false, List.append_nil]
          unfold idxLook
          rw [lookupA_setA_self]
          simp only [Option.getD_some]
          rw [hvchar v]
          unfold hasKVn
          rw [lookupA, if_pos rfl]
          simp only [Option.getD_some]
          by_cases hkv : (lookupA v kvs).isSome = true
          · rw [if_pos hkv, if_pos hkv]
            simp
          · rw [if_neg hkv, if_neg hkv]
            simp
        · have h₁ : hasKVn ((key, kvs) :: rest) k v = hasKVn rest k v := by
            unfold hasKVn
            rw [lookupA, if_neg (fun h => hk h.symm)]
          have h₂ : idxLook (setA key claim' idx) k v = idxLook idx k v := by
            unfold idxLook
            rw [lookupA_setA_other (fun h => hk h.symm)]
          rw [h₁, h₂]
      · intro k v
        rw [hhas k v]
        by_cases hk : k = key
        · subst hk
          have hrest_false : hasKVn rest k v = false := by
            unfold hasKVn
            rw [hkey_notin]
            simp [lookupA]
          rw [hrest_false]
          unfold idxHas hasKVn
          rw [lookupA_setA_self]
          simp only [Option.getD_some]
          rw [hvchar v]
          rw [lookupA, if_pos rfl]
          simp only [Option.getD_some]
          by_cases hkv : (lookupA v kvs).isSome = true
          · simp [hkv]
          · simp [hkv]
        · have h₁ : hasKVn ((key, kvs) :: rest) k v = hasKVn rest k v := by
            unfold hasKVn
            rw [lookupA, if_neg (fun h => hk h.symm)]
          have h₂ : idxHas (setA key claim' idx) k v = idxHas idx k v := by
            unfold idxHas
            rw [lookupA_setA_other (fun h => hk h.symm)]
          rw [h₁, h₂]

theorem addClaims_true_error (rid : String) :
    ∀ (nc : NClaims) (idx : Idx),
      (∃ k v, hasKVn nc k v = true ∧ idxHas idx k v = true) →
      addClaims true rid nc idx = .error (.rbac "Claim already has role") := by
  intro nc
  induction nc with
  | nil =>
    intro idx h
    obtain ⟨k, v, hkv, -⟩ := h
    unfold hasKVn at hkv
    simp [lookupA] at hkv
  | cons e rest ih =>
    intro idx h
    match e with
    | (key, kvs) =>
      obtain ⟨k, v, hkv, hhas⟩ := h
      rw [addClaims]
      by_cases hk : k = key
      · subst hk
        unfold hasKVn at hkv
        rw [lookupA, if_pos rfl] at hkv
        simp only [Option.getD_some] at hkv
        unfold idxHas at hhas
        have herr := @addVals_true_error rid kvs ((lookupA k idx).getD [])
          (by
            obtain ⟨b, hb⟩ := Option.isSome_iff_exists.mp hkv
            exact ⟨(v, b), lookupA_mem hb, hhas⟩)
        rw [herr]
      · cases hav : addVals true rid kvs ((lookupA key idx).getD []) with
        | error e₁ =>
          have he := addVals_error_val hav
          dsimp only
          rw [he]
        | ok claim' =>
          dsimp only
          apply ih
          refine ⟨k, v, ?_, ?_⟩
          · unfold hasKVn at hkv ⊢
            rwa [lookupA, if_neg (fun h => hk h.symm)] at hkv
          · unfold idxHas at hhas ⊢
            rwa [lookupA_setA_other (fun h => hk h.symm)]

end IndexLemmas

section CacheSetLemmas

theorem Role_eta (r : Role) : ({ r with permissions := r.permissions } : Role) = r := rfl

theorem cacheGet_cacheSet (c : Cache) (r : Role) : cacheGet (cacheSet c r) r.id = some r := by
  induction c with
  | nil =>
    show cacheGet [r] r.id = some r
    rw [cacheGet_cons, if_pos rfl]
  | cons q rest ih =>
    unfold cacheSet
    by_cases hq : q.id = r.id
    · rw [if_pos hq, cacheGet_cons, if_pos rfl]
    · rw [if_neg hq, cacheGet_cons, if_neg hq]
      exact ih

theorem cacheSet_get_self {c : Cache} {id : String} {r : Role}
    (h : cacheGet c id = some r) : cacheSet c r = c := by
  induction c with
  | nil => exact absurd h (by simp [cacheGet])
  | cons q rest ih =>
    rw [cacheGet_cons] at h
    unfold cacheSet
    by_cases hq : q.id = id
    · rw [if_pos hq] at h
      obtain rfl := Option.some.inj h
      rw [if_pos rfl]
    · rw [if_neg hq] at h
      have hne : q.id ≠ r.id := by
        rw [cacheGet_id h]
        exact hq
      rw [if_neg hne, ih h]

theorem genTree_sets_self {n : Nat} {c : Cache} {id : String} {t : PTree} {c₁ : Cache}
    (h : generatePermissionTree n c id = some (t, c₁)) :
    ∃ r, cacheGet c₁ id = some r ∧ r.permissions = t ∧ r.id = id := by
  cases n with
  | zero => exact absurd h (by simp [generatePermissionTree])
  | succ m =>
    rw [generatePermissionTree] at h
    cases hg : cacheGet c id with
    | none => rw [hg] at h; exact Option.noConfusion h
    | some role =>
      rw [hg] at h
      dsimp only at h
      cases hgo : goInherit (generatePermissionTree m) c role.inherit (.node []) with
      | none => rw [hgo] at h; exact Option.noConfusion h
      | some rc =>
        obtain ⟨res, c₂⟩ := rc
        rw [hgo] at h
        dsimp only at h
        cases hg₁ : cacheGet c₂ id with
        | none => rw [hg₁] at h; exact Option.noConfusion h
        | some role₁ =>
          rw [hg₁] at h
          dsimp only at h
          obtain ⟨ht, hc₁⟩ := Prod.mk.inj (Option.some.inj h)
          refine ⟨{ role₁ with permissions := mergeT res role₁.permissions }, ?_, ht, ?_⟩
          · rw [← hc₁]
            have hid₂ : role₁.id = id := cacheGet_id hg₁
            rw [← hid₂]
            exact cacheGet_cacheSet c₂
              { role₁ with permissions := mergeT res role₁.permissions }
          · exact (show role₁.id = id from cacheGet_id hg₁)

theorem genTree_no_inherit {n : Nat} {c : Cache} {id : String} {r : Role}
    (hg : cacheGet c id = some r) (hi : r.inherit = []) (hn : 1 ≤ n) :
    generatePermissionTree n c id = some (r.permissions, c) := by
  cases n with
  | zero => exact absurd hn (by omega)
  | succ m =>
    rw [generatePermissionTree, hg]
    dsimp only
    rw [hi]
    show (match goInherit (generatePermissionTree m) c [] (.node []) with
      | none => none
      | some (res, c₁) =>
        match cacheGet c₁ id with
        | none => none
        | some role₁ => some (mergeT res role₁.permissions,
            cacheSet c₁ { role₁ with permissions := mergeT res role₁.permissions })) = _
    rw [show goInherit (generatePermissionTree m) c [] (.node []) =
        some (.node [], c) from rfl]
    dsimp only
    rw [hg]
    dsimp only
    rw [mergeT_empty_left, Role_eta, cacheSet_get_self hg]

theorem idxHas_nil (k v : String) : idxHas ([] : Idx) k v = false := rfl

theorem idxLook_some_of_ne_nil {idx : Idx} {k v : String} (h : idxLook idx k v ≠ []) :
    ∃ entry, lookupA k idx = some entry ∧ idxLook idx k v = (lookupA v entry).getD [] := by
  cases hl : lookupA k idx with
  | none =>
    exfalso
    apply h
    unfold idxLook
    rw [hl]
    rfl
  | some entry =>
    refine ⟨entry, rfl, ?_⟩
    unfold idxLook
    rw [hl]
    rfl

end CacheSetLemmas

section ClaimC5

theorem mkRole_id (d : RoleDecl) : (mkRole d).id = d.id := rfl

theorem mkRole_claims (d : RoleDecl) : (mkRole d).claims = normalizeClaims d.claims := rfl

theorem mkRole_inherit (d : RoleDecl) : (mkRole d).inherit = d.inherit := rfl

theorem twoCache_get_fst (d₁ d₂ : RoleDecl) :
    cacheGet [mkRole d₁, mkRole d₂] d₁.id = some (mkRole d₁) := by
  rw [cacheGet_cons, if_pos (mkRole_id d₁)]

theorem twoCache_get_snd (d₁ d₂ : RoleDecl) (hne : d₁.id ≠ d₂.id) :
    cacheGet [mkRole d₁, mkRole d₂] d₂.id = some (mkRole d₂) := by
  rw [cacheGet_cons, if_neg (fun h => hne ((mkRole_id d₁).symm.trans h)),
    cacheGet_cons, if_pos (mkRole_id d₂)]

theorem build_two_roles (fuel : Nat) (d₁ d₂ : RoleDecl) (strict : Bool)
    (aa : Option (List String))
    (h₁ : d₁.id ≠ "") (h₂ : d₂.id ≠ "") (hne : d₁.id ≠ d₂.id)
    (hi₁ : d₁.inherit = []) (hi₂ : d₂.inherit = [])
    (hfuel : 1 ≤ fuel) :
    buildAuthorizer fuel [d₁, d₂] strict aa =
      match addClaims strict d₁.id (normalizeClaims d₁.claims) [] with
      | .error e => some (.error e)
      | .ok idx₁ =>
        match addClaims strict d₂.id (normalizeClaims d₂.claims) idx₁ with
        | .error e => some (.error e)
        | .ok idx₂ => some (.ok ⟨[mkRole d₁, mkRole d₂], idx₂, strict, aa⟩) := by
  have hp1 : phase1 [d₁, d₂] [] = .ok [mkRole d₁, mkRole d₂] := by
    rw [phase1, if_neg h₁, phase1, if_neg h₂, phase1]
    simp only [cacheSet]
    rw [if_neg (fun h => hne ((mkRole_id d₁).symm.trans (h.trans (mkRole_id d₂))))]
  have hgen1 : generatePermissionTree fuel [mkRole d₁, mkRole d₂] d₁.id
      = some ((mkRole d₁).permissions, [mkRole d₁, mkRole d₂]) :=
    genTree_no_inherit (twoCache_get_fst d₁ d₂) ((mkRole_inherit d₁).trans hi₁) hfuel
  have hgen2 : generatePermissionTree fuel [mkRole d₁, mkRole d₂] d₂.id
      = some ((mkRole d₂).permissions, [mkRole d₁, mkRole d₂]) :=
    genTree_no_inherit (twoCache_get_snd d₁ d₂ hne) ((mkRole_inherit d₂).trans hi₂) hfuel
  rw [buildAuthorizer, hp1]
  dsimp only
  rw [show List.map (fun r => r.id) ([mkRole d₁, mkRole d₂] : Cache)
      = [d₁.id, d₂.id] from rfl]
  rw [phase2, twoCache_get_fst d₁ d₂]
  dsimp only
  rw [hgen1]
  dsimp only
  rw [mkRole_id, mkRole_claims]
  cases hA : addClaims strict d₁.id (normalizeClaims d₁.claims) [] with
  | error e => rfl
  | ok idx₁ =>
    dsimp only
    rw [phase2, twoCache_get_snd d₁ d₂ hne]
    dsimp only
    rw [hgen2]
    dsimp only
    rw [mkRole_id, mkRole_claims]
    cases hB : addClaims strict d₂.id (normalizeClaims d₂.claims) idx₁ with
    | error e => rfl
    | ok idx₂ =>
      dsimp only
      rw [phase2]

/-- C5: under strict mode the Authorizer constructor throws the RBACError
"Claim already has role" when two distinct roles declare the same claim key
and claim value pair, while under default mode the same policy constructs
successfully, the claims index lists both roles under that pair in
declaration order, and both are returned as candidates for an identity
carrying that claim value. -/
theorem C5_strict_claim_collision (fuel : Nat) (d₁ d₂ : RoleDecl) (k v : String)
    (aa : Option (List String))
    (h₁ : d₁.id ≠ "") (h₂ : d₂.id ≠ "") (hne : d₁.id ≠ d₂.id)
    (hi₁ : d₁.inherit = []) (hi₂ : d₂.inherit = [])
    (hk₁ : hasKVn (normalizeClaims d₁.claims) k v = true)
    (hk₂ : hasKVn (normalizeClaims d₂.claims) k v = true)
    (hfuel : 1 ≤ fuel) :
    buildAuthorizer fuel [d₁, d₂] true aa
        = some (.error (.rbac "Claim already has role")) ∧
      ∃ a, buildAuthorizer fuel [d₁, d₂] false aa = some (.ok a) ∧
        idxGet a k v = [d₁.id, d₂.id] ∧
        (getRolesByClaim a k (some [v])).map (fun r => r.id) = [d₁.id, d₂.id] := by
  constructor
  · rw [build_two_roles fuel d₁ d₂ true aa h₁ h₂ hne hi₁ hi₂ hfuel]
    obtain ⟨idx₁, hA, hlook₁, hhas₁⟩ :=
      addClaims_ok true d₁.id (normalizeClaims d₁.claims) []
        (nodupClaims_normalizeClaims d₁.claims) (fun _ k' v' _ => idxHas_nil k' v')
    rw [hA]
    dsimp only
    rw [addClaims_true_error d₂.id (normalizeClaims d₂.claims) idx₁
      ⟨k, v, hk₂, by rw [hhas₁ k v, idxHas_nil, Bool.false_or]; exact hk₁⟩]
  · obtain ⟨idx₁, hA, hlook₁, hhas₁⟩ :=
      addClaims_ok false d₁.id (normalizeClaims d₁.claims) []
        (nodupClaims_normalizeClaims d₁.claims) (fun h => absurd h (by decide))
    obtain ⟨idx₂, hB, hlook₂, hhas₂⟩ :=
      addClaims_ok false d₂.id (normalizeClaims d₂.claims) idx₁
        (nodupClaims_normalizeClaims d₂.claims) (fun h => absurd h (by decide))
    have hkv₂ : idxLook idx₂ k v = [d₁.id, d₂.id] := by
      rw [hlook₂ k v, hlook₁ k v, hk₁, hk₂]
      rfl
    refine ⟨⟨[mkRole d₁, mkRole d₂], idx₂, false, aa⟩, ?_, ?_, ?_⟩
    · rw [build_two_roles fuel d₁ d₂ false aa h₁ h₂ hne hi₁ hi₂ hfuel, hA]
      dsimp only
      rw [hB]
    · show idxLook idx₂ k v = [d₁.id, d₂.id]
      exact hkv₂
    · have hne_nil : idxLook idx₂ k v ≠ [] := by
        rw [hkv₂]
        exact List.cons_ne_nil _ _
      obtain ⟨entry, hent, hev⟩ := idxLook_some_of_ne_nil hne_nil
      have hentry : (lookupA v entry).getD [] = [d₁.id, d₂.id] := hev.symm.trans hkv₂
      have hflat : (([v] : List String).flatMap fun s => (lookupA s entry).getD [])
          = (lookupA v entry).getD [] := by simp
      show ((match lookupA k idx₂ with
        | some claim =>
          ((([v] : List String)).flatMap (fun s => (lookupA s claim).getD [])).filterMap
            (fun rid => cacheGet ([mkRole d₁, mkRole d₂] : Cache) rid)
        | none => ([] : List Role)).map (fun (r : Role) => r.id)) = [d₁.id, d₂.id]
      rw [hent]
      dsimp only
      rw [hflat, hentry]
      simp only [List.filterMap_cons, List.filterMap_nil, twoCache_get_fst,
        twoCache_get_snd d₁ d₂ hne, List.map_cons, List.map_nil, mkRole_id]

/-- C5 witness: the collision theorem instantiated on two concrete roles
both claiming groups equal to admin. -/
theorem C5_strict_claim_collision_witness :
    buildAuthorizer 1 [adminADecl, adminBDecl] true none
        = some (.error (.rbac "Claim already has role")) ∧
      ∃ a, buildAuthorizer 1 [adminADecl, adminBDecl] false none = some (.ok a) ∧
        idxGet a "groups" "admin" = [adminADecl.id, adminBDecl.id] ∧
        (getRolesByClaim a "groups" (some ["admin"])).map (fun r => r.id)
          = [adminADecl.id, adminBDecl.id] :=
  C5_strict_claim_collision 1 adminADecl adminBDecl "groups" "admin" none
    (by decide) (by decide) (by decide) rfl rfl (by decide) (by decide) (by decide)

end ClaimC5

section FoldCacheLemmas

theorem cacheGet_set (c : Cache) (r : Role) (i : String) :
    cacheGet (cacheSet c r) i = if r.id = i then some r else cacheGet c i := by
  induction c with
  | nil =>
    show cacheGet [r] i = _
    rw [cacheGet_cons]
  | cons q rest ih =>
    show cacheGet (if q.id = r.id then r :: rest else q :: cacheSet rest r) i = _
    by_cases hq : q.id = r.id
    · rw [if_pos hq, cacheGet_cons, cacheGet_cons]
      by_cases hi : r.id = i
      · rw [if_pos hi, if_pos hi]
      · rw [if_neg hi, if_neg hi, if_neg (fun h => hi (hq.symm.trans h))]
    · rw [if_neg hq, cacheGet_cons, ih, cacheGet_cons]
      by_cases hqi : q.id = i
      · rw [if_pos hqi, if_neg (fun h => hq (hqi.trans h.symm)), if_pos hqi]
      · rw [if_neg hqi, if_neg hqi]

theorem cacheGet_append (c₁ c₂ : Cache) (i : String) :
    cacheGet (c₁ ++ c₂) i =
      match cacheGet c₁ i with
      | some r => some r
      | none => cacheGet c₂ i := by
  induction c₁ with
  | nil => rfl
  | cons q rest ih =>
    rw [List.cons_append, cacheGet_cons, cacheGet_cons]
    by_cases hq : q.id = i
    · rw [if_pos hq, if_pos hq]
    · rw [if_neg hq, if_neg hq, ih]

theorem cacheGet_foldl_set (rs : List Role) (c : Cache) (i : String) :
    cacheGet (List.foldl cacheSet c rs) i =
      match cacheGet rs.reverse i with
      | some r => some r
      | none => cacheGet c i := by
  induction rs generalizing c with
  | nil => rfl
  | cons r rest ih =>
    rw [List.foldl_cons, ih, List.reverse_cons, cacheGet_append]
    cases hr : cacheGet rest.reverse i with
    | some q => rfl
    | none =>
      dsimp only
      rw [cacheGet_set,
        show cacheGet [r] i = if r.id = i then some r else none from by
          rw [cacheGet_cons]
          rfl]
      by_cases hri : r.id = i
      · rw [if_pos hri, if_pos hri]
      · rw [if_neg hri, if_neg hri]

theorem cacheGet_isSome_iff (c : Cache) (i : String) :
    (cacheGet c i).isSome = true ↔ i ∈ c.map (fun r => r.id) := by
  induction c with
  | nil => simp [cacheGet]
  | cons r rest ih =>
    rw [cacheGet_cons]
    by_cases hr : r.id = i
    · simp [hr]
    · simp [hr, Ne.symm hr, ih]

theorem keys_cacheSet (c : Cache) (r : Role) :
    (cacheSet c r).map (fun q => q.id) =
      if (cacheGet c r.id).isSome then c.map (fun q => q.id)
      else c.map (fun q => q.id) ++ [r.id] := by
  induction c with
  | nil => simp [cacheSet, cacheGet]
  | cons q rest ih =>
    show ((if q.id = r.id then r :: rest else q :: cacheSet rest r).map _) = _
    rw [cacheGet_cons]
    by_cases hq : q.id = r.id
    · rw [if_pos hq, if_pos (by rw [if_pos hq]; rfl)]
      simp [hq]
    · rw [if_neg hq, if_neg hq]
      simp only [List.map_cons, ih]
      cases hrest : (cacheGet rest r.id).isSome <;> simp [hrest]

theorem nodup_keys_cacheSet (c : Cache) (r : Role)
    (h : (c.map (fun q => q.id)).Nodup) :
    ((cacheSet c r).map (fun q => q.id)).Nodup := by
  induction c with
  | nil => simp [cacheSet]
  | cons q rest ih =>
    show ((if q.id = r.id then r :: rest else q :: cacheSet rest r).map _).Nodup
    by_cases hq : q.id = r.id
    · rw [if_pos hq]
      simp only [List.map_cons] at h ⊢
      rw [← hq]
      exact h
    · rw [if_neg hq]
      simp only [List.map_cons, List.nodup_cons] at h ⊢
      refine ⟨?_, ih h.2⟩
      intro hmem
      rw [keys_cacheSet] at hmem
      by_cases hs : (cacheGet rest r.id).isSome = true
      · rw [if_pos hs] at hmem
        exact h.1 hmem
      · rw [if_neg hs] at hmem
        rcases List.mem_append.mp hmem with h₂ | h₂
        · exact h.1 h₂
        · exact hq (by simpa using h₂)

theorem nodup_keys_foldl (L : List RoleDecl) :
    ∀ c : Cache, (c.map (fun q => q.id)).Nodup →
      ((List.foldl (fun c d => cacheSet c (mkRole d)) c L).map (fun q => q.id)).Nodup := by
  induction L with
  | nil => intro c h; exact h
  | cons d rest ih => intro c h; exact ih _ (nodup_keys_cacheSet c (mkRole d) h)

theorem mem_cacheSet {c : Cache} {r x : Role} (h : x ∈ cacheSet c r) : x ∈ c ∨ x = r := by
  induction c with
  | nil =>
    rw [show cacheSet [] r = [r] from rfl] at h
    exact Or.inr (by simpa using h)
  | cons q rest ih =>
    rw [show cacheSet (q :: rest) r
        = if q.id = r.id then r :: rest else q :: cacheSet rest r from rfl] at h
    by_cases hq : q.id = r.id
    · rw [if_pos hq] at h
      rcases List.mem_cons.mp h with h₁ | h₁
      · exact Or.inr h₁
      · exact Or.inl (List.mem_cons_of_mem _ h₁)
    · rw [if_neg hq] at h
      rcases List.mem_cons.mp h with h₁ | h₁
      · exact Or.inl (by rw [h₁]; exact List.mem_cons_self _ _)
      · rcases ih h₁ with h₂ | h₂
        · exact Or.inl (List.mem_cons_of_mem _ h₂)
        · exact Or.inr h₂

theorem mem_foldl_cacheSet :
    ∀ (rs : List Role) (c : Cache) (x : Role),
      x ∈ List.foldl cacheSet c rs → x ∈ c ∨ x ∈ rs := by
  intro rs
  induction rs with
  | nil => intro c x h; exact Or.inl h
  | cons r rest ih =>
    intro c x h
    rw [List.foldl_cons] at h
    rcases ih _ x h with h₁ | h₁
    · rcases mem_cacheSet h₁ with h₂ | h₂
      · exact Or.inl h₂
      · exact Or.inr (by rw [h₂]; exact List.mem_cons_self _ _)
    · exact Or.inr (List.mem_cons_of_mem _ h₁)

theorem foldl_role_shape {L : List RoleDecl} {r : Role}
    (h : r ∈ List.foldl (fun c d => cacheSet c (mkRole d)) [] L) :
    ∃ d ∈ L, r = mkRole d := by
  rw [← List.foldl_map] at h
  rcases mem_foldl_cacheSet _ _ _ h with h₁ | h₁
  · exact absurd h₁ (List.not_mem_nil _)
  · obtain ⟨d, hd, rfl⟩ := List.mem_map.mp h₁
    exact ⟨d, hd, rfl⟩

theorem phase1_ok_of_ids (L : List RoleDecl) :
    ∀ c : Cache, (∀ d ∈ L, d.id ≠ "") →
      phase1 L c = .ok (List.foldl (fun c d => cacheSet c (mkRole d)) c L) := by
  induction L with
  | nil => intro c _; rfl
  | cons d rest ih =>
    intro c h
    rw [phase1, if_neg (h d (List.mem_cons_self _ _)), List.foldl_cons]
    exact ih _ (fun d' hd' => h d' (List.mem_cons_of_mem _ hd'))

theorem phase1_ids_ne (L : List RoleDecl) :
    ∀ (c c' : Cache), phase1 L c = .ok c' → ∀ d ∈ L, d.id ≠ "" := by
  induction L with
  | nil => intro c c' _ d hd; exact absurd hd (List.not_mem_nil _)
  | cons e rest ih =>
    intro c c' h d hd
    rw [phase1] at h
    by_cases he : e.id = ""
    · rw [if_pos he] at h
      exact Except.noConfusion h
    · rw [if_neg he] at h
      rcases List.mem_cons.mp hd with rfl | hd'
      · exact he
      · exact ih _ _ h d hd'

theorem mem_keys_foldl (L : List RoleDecl) (i : String) :
    i ∈ ((List.foldl (fun c d => cacheSet c (mkRole d)) [] L).map (fun q => q.id))
      ↔ i ∈ L.map (fun d => d.id) := by
  have hrevkeys : ((L.map mkRole).reverse.map (fun q => q.id))
      = (L.map (fun d => d.id)).reverse := by
    rw [List.map_reverse, List.map_map]
    rfl
  have h₂ := cacheGet_isSome_iff ((L.map mkRole).reverse) i
  rw [hrevkeys, List.mem_reverse] at h₂
  rw [← cacheGet_isSome_iff, ← List.foldl_map, cacheGet_foldl_set]
  cases hrev : cacheGet (L.map mkRole).reverse i with
  | some r =>
    rw [hrev] at h₂
    exact h₂
  | none =>
    rw [hrev] at h₂
    exact h₂

theorem cacheGet_foldl_decls (L : List RoleDecl) (i : String) :
    cacheGet (List.foldl (fun c d => cacheSet c (mkRole d)) [] L) i =
      match cacheGet (L.map mkRole).reverse i with
      | some r => some r
      | none => none := by
  rw [← List.foldl_map, cacheGet_foldl_set]
  cases cacheGet (L.map mkRole).reverse i <;> rfl

theorem dup_lookup_eq (pre mid post : List RoleDecl) (dA dB : RoleDecl)
    (hid : dA.id = dB.id) (i : String) :
    cacheGet (List.foldl (fun c d => cacheSet c (mkRole d)) []
        (pre ++ [dA] ++ mid ++ [dB] ++ post)) i =
      cacheGet (List.foldl (fun c d => cacheSet c (mkRole d)) []
        (pre ++ mid ++ [dB] ++ post)) i := by
  rw [cacheGet_foldl_decls, cacheGet_foldl_decls]
  simp only [List.map_append, List.map_cons, List.map_nil, List.reverse_append,
    List.reverse_cons, List.reverse_nil, List.nil_append, List.append_assoc,
    List.cons_append, List.singleton_append]
  rw [cacheGet_append, cacheGet_append]
  cases cacheGet ((post.map mkRole).reverse) i with
  | some r => rfl
  | none =>
    dsimp only
    rw [cacheGet_cons, cacheGet_cons]
    by_cases hB : (mkRole dB).id = i
    · rw [if_pos hB, if_pos hB]
    · rw [if_neg hB, if_neg hB, cacheGet_append, cacheGet_append]
      cases cacheGet ((mid.map mkRole).reverse) i with
      | some r => rfl
      | none =>
        dsimp only
        rw [cacheGet_cons,
          if_neg (fun h =>
            hB ((mkRole_id dB).trans (hid.symm.trans ((mkRole_id dA).symm.trans h))))]

theorem dup_keys_perm (pre mid post : List RoleDecl) (dA dB : RoleDecl)
    (hid : dA.id = dB.id) :
    ((List.foldl (fun c d => cacheSet c (mkRole d)) []
        (pre ++ [dA] ++ mid ++ [dB] ++ post)).map (fun q => q.id)).Perm
      ((List.foldl (fun c d => cacheSet c (mkRole d)) []
        (pre ++ mid ++ [dB] ++ post)).map (fun q => q.id)) := by
  apply List.perm_of_nodup_nodup_toFinset_eq
  · exact nodup_keys_foldl _ [] (by simp)
  · exact nodup_keys_foldl _ [] (by simp)
  · ext x
    simp only [List.mem_toFinset]
    rw [mem_keys_foldl, mem_keys_foldl]
    simp only [List.map_append, List.mem_append, List.map_cons, List.map_nil,
      List.mem_cons, List.not_mem_nil, or_false, hid]
    tauto

end FoldCacheLemmas

section WfBuild

theorem wfL_setA {l : List (String × PTree)} (h : wfL l = true) {k : String} {v : PTree}
    (hv : wfT v = true) : wfL (setA k v l) = true := by
  rw [wfL_iff_mem]
  intro k' t hm
  rcases mem_setA hm with h₁ | h₁
  · obtain ⟨rfl, rfl⟩ := Prod.mk.inj h₁
    exact hv
  · exact (wfL_iff_mem l).mp h k' t h₁

theorem mem_foldl_setA {β : Type} :
    ∀ (entries : List (String × β)) (init : List (String × β)) (p : String × β),
      p ∈ List.foldl (fun a q => setA q.1 q.2 a) init entries → p ∈ init ∨ p ∈ entries := by
  intro entries
  induction entries with
  | nil => intro init p h; exact Or.inl h
  | cons e rest ih =>
    intro init p h
    rw [List.foldl_cons] at h
    rcases ih _ p h with h₁ | h₁
    · rcases mem_setA h₁ with h₂ | h₂
      · right
        rw [h₂]
        exact List.mem_cons_self _ _
      · exact Or.inl h₂
    · exact Or.inr (List.mem_cons_of_mem _ h₁)

theorem mem_assignVals_aux (c : List (String × PTree)) :
    ∀ (init : List (String × PTree)) (p : String × PTree),
      p ∈ c.foldl (fun acc q =>
        match q.2 with
        | .leaf => acc
        | .node vc => vc.foldl (fun a w => setA w.1 w.2 a) acc) init →
      p ∈ init ∨ ∃ kc vc, (kc, PTree.node vc) ∈ c ∧ p ∈ vc := by
  induction c with
  | nil => intro init p h; exact Or.inl h
  | cons q rest ih =>
    intro init p h
    rw [List.foldl_cons] at h
    rcases ih _ p h with h₁ | h₁
    · cases hq : q.2 with
      | leaf =>
        rw [hq] at h₁
        exact Or.inl h₁
      | node vc =>
        rw [hq] at h₁
        rcases mem_foldl_setA vc init p h₁ with h₂ | h₂
        · exact Or.inl h₂
        · refine Or.inr ⟨q.1, vc, ?_, h₂⟩
          rw [← hq]
          exact List.mem_cons_self _ _
    · obtain ⟨kc, vc, hm, hp⟩ := h₁
      exact Or.inr ⟨kc, vc, List.mem_cons_of_mem _ hm, hp⟩

theorem mem_assignVals {c : List (String × PTree)} {p : String × PTree}
    (h : p ∈ assignVals c) : ∃ kc vc, (kc, PTree.node vc) ∈ c ∧ p ∈ vc := by
  rcases mem_assignVals_aux c [] p h with h₁ | h₁
  · exact absurd h₁ (List.not_mem_nil p)
  · exact h₁

theorem nodupKeys_assignVals_aux (c : List (String × PTree)) :
    ∀ (init : List (String × PTree)), nodupKeys init = true →
      nodupKeys (c.foldl (fun acc q =>
        match q.2 with
        | .leaf => acc
        | .node vc => vc.foldl (fun a w => setA w.1 w.2 a) acc) init) = true := by
  induction c with
  | nil => intro init h; exact h
  | cons q rest ih =>
    intro init h
    rw [List.foldl_cons]
    apply ih
    cases hq : q.2 with
    | leaf => exact h
    | node vc => exact nodupKeys_foldl_setA vc h

theorem wfT_insParts : ∀ (parts : List String) (c : List (String × PTree)),
    wfT (.node c) = true → wfT (.node (insParts c parts)) = true := by
  intro parts
  induction parts with
  | nil => intro c h; exact h
  | cons str rest ih =>
    intro c h
    rw [wfT_node_iff] at h
    obtain ⟨hnd, hwl⟩ := h
    cases rest with
    | nil =>
      rw [insParts]
      by_cases hs : str = "*"
      · rw [if_pos hs, wfT_node_iff]
        exact ⟨nodupKeys_setA hnd, wfL_setA hwl rfl⟩
      · rw [if_neg hs, wfT_node_iff]
        exact ⟨nodupKeys_setA hnd, wfL_setA hwl rfl⟩
    | cons str₂ rest₂ =>
      rw [insParts]
      cases hw : lookupA "*" c with
      | some w =>
        rw [wfT_node_iff]
        refine ⟨nodupKeys_setA hnd, wfL_setA hwl ?_⟩
        apply ih
        cases w with
        | leaf => rfl
        | node wc =>
          show wfT (.node wc) = true
          exact (wfL_iff_mem c).mp hwl "*" (.node wc) (lookupA_mem hw)
      | none =>
        by_cases hs : str = "*"
        · rw [if_pos hs, wfT_node_iff]
          refine ⟨nodupKeys_setA hnd, wfL_setA hwl ?_⟩
          apply ih
          rw [wfT_node_iff]
          constructor
          · exact nodupKeys_assignVals_aux c [] rfl
          · rw [wfL_iff_mem]
            intro k t hm
            obtain ⟨kc, vc, hmem, hpm⟩ := mem_assignVals hm
            have hwc := (wfL_iff_mem c).mp hwl kc (.node vc) hmem
            rw [wfT_node_iff] at hwc
            exact (wfL_iff_mem vc).mp hwc.2 k t hpm
        · rw [if_neg hs, wfT_node_iff]
          refine ⟨nodupKeys_setA hnd, wfL_setA hwl ?_⟩
          apply ih
          cases hl : lookupA str c with
          | none => rfl
          | some u =>
            cases u with
            | leaf => rfl
            | node uc =>
              show wfT (.node uc) = true
              exact (wfL_iff_mem c).mp hwl str (.node uc) (lookupA_mem hl)
      exact fun h => List.noConfusion h

theorem wfT_normalizePermissions (ps : List String) :
    wfT (normalizePermissions ps) = true := by
  unfold normalizePermissions
  have key : ∀ (init : List (String × PTree)), wfT (.node init) = true →
      wfT (.node (ps.foldl (fun acc s => insParts acc (splitDot s)) init)) = true := by
    induction ps with
    | nil => intro init h; exact h
    | cons s rest ih =>
      intro init h
      rw [List.foldl_cons]
      exact ih _ (wfT_insParts (splitDot s) init h)
  exact key [] rfl

theorem wfCache_foldl (L : List RoleDecl) :
    wfCache (List.foldl (fun c d => cacheSet c (mkRole d)) [] L) = true := by
  unfold wfCache
  rw [List.all_eq_true]
  intro r hr
  obtain ⟨d, hd, rfl⟩ := foldl_role_shape hr
  exact wfT_normalizePermissions d.permissions

end WfBuild

section Phase2Lemmas

theorem Role_eq_of_fields {r₁ r₂ : Role} (h1 : r₁.id = r₂.id)
    (h2 : r₁.description = r₂.description) (h3 : r₁.inherit = r₂.inherit)
    (h4 : r₁.claims = r₂.claims) (h5 : r₁.permissions = r₂.permissions) : r₁ = r₂ := by
  cases r₁
  cases r₂
  dsimp only at h1 h2 h3 h4 h5
  subst h1
  subst h2
  subst h3
  subst h4
  subst h5
  rfl

theorem phase2_some_presolve (fuel : Nat) (c₀ : Cache) (hwf : wfCache c₀ = true) :
    ∀ (ids : List String) (c : Cache) (idx : Idx) (res : Except JsErr (Cache × Idx)),
      Evolved c₀ c₀ c →
      phase2 fuel false ids c idx = some res →
      (∀ i ∈ ids, ∃ r, cacheGet c₀ i = some r ∧ nodupClaims r.claims = true) →
      ∀ i ∈ ids, (presolve fuel c₀ i).isSome = true := by
  intro ids
  induction ids with
  | nil => intro c idx res _ _ _ i hi; exact absurd hi (List.not_mem_nil _)
  | cons j rest ih =>
    intro c idx res hev hph hroles i hi
    obtain ⟨r, hr, hrnd⟩ := hroles j (List.mem_cons_self _ _)
    rcases Evolved_cacheGet hev j with ⟨hn, -⟩ | ⟨r', role, hr', hrole, hstep⟩
    · rw [hr] at hn
      exact Option.noConfusion hn
    · rw [hr] at hr'
      obtain rfl := Option.some.inj hr'
      rw [phase2, hrole] at hph
      dsimp only at hph
      have hgt := genTree_presolve fuel c₀ hwf c hev j
      cases hpre : presolve fuel c₀ j with
      | none =>
        rw [hpre] at hgt
        dsimp only at hgt
        rw [hgt] at hph
        dsimp only at hph
        exact Option.noConfusion hph
      | some t =>
        rw [hpre] at hgt
        dsimp only at hgt
        obtain ⟨c', hgen, hevc'⟩ := hgt
        rw [hgen] at hph
        dsimp only at hph
        rcases List.mem_cons.mp hi with rfl | hi'
        · rw [hpre]
          rfl
        · have hclaims : role.claims = r.claims := hstep.2.2.2.1
          obtain ⟨idx₁, hA, -, -⟩ :=
            addClaims_ok false role.id role.claims idx
              (by rw [hclaims]; exact hrnd) (fun h => absurd h (by decide))
          rw [hA] at hph
          dsimp only at hph
          exact ih c' idx₁ res (Evolved_trans hev hevc') hph
            (fun j' hj' => hroles j' (List.mem_cons_of_mem _ hj')) i hi'

theorem phase2_ok (fuel : Nat) (c₀ : Cache) (hwf : wfCache c₀ = true) :
    ∀ (ids : List String) (c : Cache) (idx : Idx),
      Evolved c₀ c₀ c →
      (∀ i ∈ ids, ∃ r, cacheGet c₀ i = some r ∧ nodupClaims r.claims = true) →
      (∀ i ∈ ids, (presolve fuel c₀ i).isSome = true) →
      ∃ c₁ idx₁, phase2 fuel false ids c idx = some (.ok (c₁, idx₁)) ∧
        Evolved c₀ c c₁ ∧
        (∀ k v, idxLook idx₁ k v = idxLook idx k v ++ ids.filter (fun i => declKV c₀ i k v)) ∧
        (∀ i ∈ ids, ∃ r₁, cacheGet c₁ i = some r₁ ∧
          (∃ m, presolve m c₀ i = some r₁.permissions)) := by
  intro ids
  induction ids with
  | nil =>
    intro c idx hev _ _
    refine ⟨c, idx, rfl, Evolved_refl c₀ c, ?_, ?_⟩
    · intro k v
      simp [List.filter_nil]
    · intro i hi
      exact absurd hi (List.not_mem_nil _)
  | cons i rest ih =>
    intro c idx hev hroles hpres
    obtain ⟨r, hr, hrnd⟩ := hroles i (List.mem_cons_self _ _)
    rcases Evolved_cacheGet hev i with ⟨hn, -⟩ | ⟨r', role, hr', hrole, hstep⟩
    · rw [hr] at hn
      exact Option.noConfusion hn
    · rw [hr] at hr'
      obtain rfl := Option.some.inj hr'
      obtain ⟨t, ht⟩ := Option.isSome_iff_exists.mp (hpres i (List.mem_cons_self _ _))
      have hgt := genTree_presolve fuel c₀ hwf c hev i
      rw [ht] at hgt
      dsimp only at hgt
      obtain ⟨c', hgen, hevc'⟩ := hgt
      have hclaims : role.claims = r.claims := hstep.2.2.2.1
      have hrid : role.id = i := cacheGet_id hrole
      obtain ⟨idx₁, hA, hlook₁, hhas₁⟩ :=
        addClaims_ok false role.id role.claims idx
          (by rw [hclaims]; exact hrnd) (fun h => absurd h (by decide))
      have hev' : Evolved c₀ c₀ c' := Evolved_trans hev hevc'
      obtain ⟨c₁, idx₂, hph, hev₂, hlook₂, hres₂⟩ :=
        ih c' idx₁ hev' (fun j hj => hroles j (List.mem_cons_of_mem _ hj))
          (fun j hj => hpres j (List.mem_cons_of_mem _ hj))
      have hphase : phase2 fuel false (i :: rest) c idx = phase2 fuel false rest c' idx₁ := by
        rw [phase2, hrole]
        dsimp only
        rw [hgen]
        dsimp only
        rw [hA]
      refine ⟨c₁, idx₂, hphase.trans hph, Evolved_trans hevc' hev₂, ?_, ?_⟩
      · intro k v
        rw [hlook₂ k v, hlook₁ k v, hclaims, hrid, List.filter_cons]
        have hdecl : declKV c₀ i k v = hasKVn r.claims k v := by
          unfold declKV
          rw [hr]
          rfl
        rw [hdecl]
        by_cases hkv : hasKVn r.claims k v = true
        · rw [if_pos hkv, if_pos hkv, List.append_assoc]
          rfl
        · rw [if_neg hkv, if_neg hkv, List.append_nil]
      · intro j hj
        rcases List.mem_cons.mp hj with rfl | hj'
        · obtain ⟨rset, hgetc', hpermt, hidr⟩ := genTree_sets_self hgen
          rcases Evolved_cacheGet hev₂ j with ⟨hn₂, -⟩ | ⟨a, b, ha, hb, hstep₂⟩
          · rw [hgetc'] at hn₂
            exact Option.noConfusion hn₂
          · rw [hgetc'] at ha
            obtain rfl := Option.some.inj ha
            refine ⟨b, hb, ?_⟩
            rcases hstep₂.2.2.2.2 with hsame | ⟨m, hm⟩
            · rw [hsame, hpermt]
              exact ⟨fuel, ht⟩
            · have hbid : b.id = j := (hstep₂.1).trans hidr
              rw [hbid] at hm
              exact ⟨m, hm⟩
        · exact hres₂ j hj'

end Phase2Lemmas

section ClaimC10

theorem foldl_roles_hyp (L : List RoleDecl) :
    ∀ i ∈ (List.foldl (fun c d => cacheSet c (mkRole d)) [] L).map (fun r => r.id),
      ∃ r, cacheGet (List.foldl (fun c d => cacheSet c (mkRole d)) [] L) i = some r
        ∧ nodupClaims r.claims = true := by
  intro i hi
  obtain ⟨r, hr⟩ := Option.isSome_iff_exists.mp ((cacheGet_isSome_iff _ i).mpr hi)
  refine ⟨r, hr, ?_⟩
  obtain ⟨d, hd, rfl⟩ := foldl_role_shape (cacheGet_mem hr)
  exact nodupClaims_normalizeClaims d.claims

theorem build_agree (fuel : Nat) (L₁ L₂ : List RoleDecl) (aa : Option (List String))
    (a₁ : Authorizer)
    (hmem : ∀ x, x ∈ L₁.map (fun d => d.id) ↔ x ∈ L₂.map (fun d => d.id))
    (hlookeq : ∀ i, cacheGet (List.foldl (fun c d => cacheSet c (mkRole d)) [] L₁) i
      = cacheGet (List.foldl (fun c d => cacheSet c (mkRole d)) [] L₂) i)
    (hids₂ : ∀ d ∈ L₂, d.id ≠ "")
    (hb₁ : buildAuthorizer fuel L₁ false aa = some (.ok a₁)) :
    ∃ a₂, buildAuthorizer fuel L₂ false aa = some (.ok a₂) ∧
      (∀ i, cacheGet a₁.roles i = cacheGet a₂.roles i) ∧
      (∀ k v, (idxGet a₁ k v).Perm (idxGet a₂ k v)) ∧
      a₁.strict = a₂.strict ∧ a₁.authorizeAgainst = a₂.authorizeAgainst := by
  rw [buildAuthorizer] at hb₁
  cases hp1 : phase1 L₁ [] with
  | error e =>
    rw [hp1] at hb₁
    dsimp only at hb₁
    exact absurd (Option.some.inj hb₁) (fun h => Except.noConfusion h)
  | ok cA =>
    rw [hp1] at hb₁
    dsimp only at hb₁
    have hids₁ := phase1_ids_ne _ _ _ hp1
    have hcA : cA = List.foldl (fun c d => cacheSet c (mkRole d)) [] L₁ := by
      have hh := phase1_ok_of_ids L₁ [] hids₁
      rw [hp1] at hh
      exact Except.ok.inj hh
    subst hcA
    have hp2 : phase1 L₂ []
        = .ok (List.foldl (fun c d => cacheSet c (mkRole d)) [] L₂) :=
      phase1_ok_of_ids L₂ [] hids₂
    have hwf₁ : wfCache (List.foldl (fun c d => cacheSet c (mkRole d)) [] L₁) = true :=
      wfCache_foldl L₁
    have hwf₂ : wfCache (List.foldl (fun c d => cacheSet c (mkRole d)) [] L₂) = true :=
      wfCache_foldl L₂
    have hkeymem : ∀ i,
        i ∈ ((List.foldl (fun c d => cacheSet c (mkRole d)) [] L₂).map (fun r => r.id)) ↔
        i ∈ ((List.foldl (fun c d => cacheSet c (mkRole d)) [] L₁).map (fun r => r.id)) := by
      intro i
      rw [mem_keys_foldl, mem_keys_foldl]
      exact (hmem i).symm
    cases hph : phase2 fuel false
        ((List.foldl (fun c d => cacheSet c (mkRole d)) [] L₁).map (fun r => r.id))
        (List.foldl (fun c d => cacheSet c (mkRole d)) [] L₁) [] with
    | none =>
      rw [hph] at hb₁
      exact Option.noConfusion hb₁
    | some res =>
      rw [hph] at hb₁
      cases res with
      | error e =>
        dsimp only at hb₁
        exact absurd (Option.some.inj hb₁) (fun h => Except.noConfusion h)
      | ok pr =>
        obtain ⟨cR₁, idxR₁⟩ := pr
        dsimp only at hb₁
        obtain rfl := Except.ok.inj (Option.some.inj hb₁)
        have hpres₁ : ∀ i ∈ ((List.foldl (fun c d => cacheSet c (mkRole d)) [] L₁).map
            (fun r => r.id)),
            (presolve fuel (List.foldl (fun c d => cacheSet c (mkRole d)) [] L₁) i).isSome
              = true :=
          phase2_some_presolve fuel _ hwf₁ _ _ _ _ (Evolved_refl _ _) hph (foldl_roles_hyp L₁)
        obtain ⟨c₁', idx₁', hph₁', hev₁, hlookI₁, hresolved₁⟩ :=
          phase2_ok fuel _ hwf₁
            ((List.foldl (fun c d => cacheSet c (mkRole d)) [] L₁).map (fun r => r.id))
            _ [] (Evolved_refl _ _) (foldl_roles_hyp L₁) hpres₁
        rw [hph] at hph₁'
        obtain ⟨hc₁', hidx₁'⟩ := Prod.mk.inj (Except.ok.inj (Option.some.inj hph₁'))
        subst hc₁'
        subst hidx₁'
        have hpres₂ : ∀ i ∈ ((List.foldl (fun c d => cacheSet c (mkRole d)) [] L₂).map
            (fun r => r.id)),
            (presolve fuel (List.foldl (fun c d => cacheSet c (mkRole d)) [] L₂) i).isSome
              = true := by
          intro i hi
          rw [← presolve_ext hlookeq fuel i]
          exact hpres₁ i ((hkeymem i).mp hi)
        obtain ⟨c₂', idx₂', hph₂', hev₂, hlookI₂, hresolved₂⟩ :=
          phase2_ok fuel _ hwf₂
            ((List.foldl (fun c d => cacheSet c (mkRole d)) [] L₂).map (fun r => r.id))
            _ [] (Evolved_refl _ _) (foldl_roles_hyp L₂) hpres₂
        refine ⟨⟨c₂', idx₂', false, aa⟩, ?_, ?_, ?_, rfl, rfl⟩
        · rw [buildAuthorizer, hp2]
          dsimp only
          rw [hph₂']
        · intro i
          show cacheGet cR₁ i = cacheGet c₂' i
          by_cases hin :
            (cacheGet (List.foldl (fun c d => cacheSet c (mkRole d)) [] L₁) i).isSome = true
          · have hi₁ := (cacheGet_isSome_iff _ i).mp hin
            have hi₂ := (hkeymem i).mpr hi₁
            obtain ⟨rA, hgA, mA, hmA⟩ := hresolved₁ i hi₁
            obtain ⟨rB, hgB, mB, hmB⟩ := hresolved₂ i hi₂
            obtain ⟨rO, hO⟩ := Option.isSome_iff_exists.mp hin
            have hO₂ : cacheGet (List.foldl (fun c d => cacheSet c (mkRole d)) [] L₂) i
                = some rO := by
              rw [← hlookeq i]
              exact hO
            rcases Evolved_cacheGet hev₁ i with ⟨hn, -⟩ | ⟨x, y, hx, hy, hstepA⟩
            · rw [hO] at hn
              exact Option.noConfusion hn
            · rcases Evolved_cacheGet hev₂ i with ⟨hn₂, -⟩ | ⟨x', y', hx', hy', hstepB⟩
              · rw [hO₂] at hn₂
                exact Option.noConfusion hn₂
              · rw [hO] at hx
                obtain rfl := Option.some.inj hx
                rw [hgA] at hy
                obtain rfl := Option.some.inj hy
                rw [hO₂] at hx'
                obtain rfl := Option.some.inj hx'
                rw [hgB] at hy'
                obtain rfl := Option.some.inj hy'
                have hmB' : presolve mB (List.foldl (fun c d => cacheSet c (mkRole d)) [] L₁) i
                    = some rB.permissions := by
                  rw [presolve_ext hlookeq mB i]
                  exact hmB
                have hperm : rA.permissions = rB.permissions := presolve_det hmA hmB'
                rw [hgA, hgB,
                  Role_eq_of_fields ((hstepA.1).trans (hstepB.1).symm)
                    ((hstepA.2.1).trans (hstepB.2.1).symm)
                    ((hstepA.2.2.1).trans (hstepB.2.2.1).symm)
                    ((hstepA.2.2.2.1).trans (hstepB.2.2.2.1).symm) hperm]
          · have hnone₁ : cacheGet (List.foldl (fun c d => cacheSet c (mkRole d)) [] L₁) i
                = none := by
              cases hcg : cacheGet (List.foldl (fun c d => cacheSet c (mkRole d)) [] L₁) i with
              | none => rfl
              | some r => exact absurd (by rw [hcg]; rfl) hin
            have hnone₂ : cacheGet (List.foldl (fun c d => cacheSet c (mkRole d)) [] L₂) i
                = none := by
              rw [← hlookeq i]
              exact hnone₁
            rcases Evolved_cacheGet hev₁ i with ⟨-, hcn⟩ | ⟨x, y, hx, -, -⟩
            · rcases Evolved_cacheGet hev₂ i with ⟨-, hcn₂⟩ | ⟨x', y', hx', -, -⟩
              · rw [hcn, hcn₂]
              · rw [hnone₂] at hx'
                exact Option.noConfusion hx'
            · rw [hnone₁] at hx
              exact Option.noConfusion hx
        · intro k v
          show (idxLook idxR₁ k v).Perm (idxLook idx₂' k v)
          rw [hlookI₁ k v, hlookI₂ k v,
            show idxLook ([] : Idx) k v = [] from rfl, List.nil_append, List.nil_append]
          rw [show List.filter
              (fun i => declKV (List.foldl (fun c d => cacheSet c (mkRole d)) [] L₂) i k v)
              ((List.foldl (fun c d => cacheSet c (mkRole d)) [] L₂).map (fun r => r.id))
              = List.filter
              (fun i => declKV (List.foldl (fun c d => cacheSet c (mkRole d)) [] L₁) i k v)
              ((List.foldl (fun c d => cacheSet c (mkRole d)) [] L₂).map (fun r => r.id)) from by
            apply List.filter_congr
            intro i hi
            unfold declKV
            rw [← hlookeq i]]
          apply List.Perm.filter
          apply List.perm_of_nodup_nodup_toFinset_eq
          · exact nodup_keys_foldl _ [] (by simp)
          · exact nodup_keys_foldl _ [] (by simp)
          · ext x
            simp only [List.mem_toFinset]
            rw [mem_keys_foldl, mem_keys_foldl]
            exact hmem x

/-- C10 counterexample: with the duplicate-id policy x, y, x the claims
index of the constructed registry lists the candidate roles for the claim
pair groups equal to a as x then y, while the registry of the policy with
the earlier duplicate removed lists them as y then x: the two registries
are not identical. -/
theorem C10_counterexample :
    (buildOk 1 [dupXDecl1, dupYDecl, dupXDecl2] false none).map
        (fun a => idxGet a "groups" "a") = some ["x", "y"] ∧
      (buildOk 1 [dupYDecl, dupXDecl2] false none).map
        (fun a => idxGet a "groups" "a") = some ["y", "x"] := ⟨rfl, rfl⟩

/-- C10 amended: a later duplicate role declaration silently overwrites the
earlier one and construction does not fail; the resulting registry agrees
with the registry built from the policy with the earlier duplicate removed
on every role lookup and on the options, and its claims-index entries list
the same roles up to order, but not necessarily in the same order, because
the overwritten role keeps the earlier insertion position of the role map. -/
theorem C10_amended (fuel : Nat) (pre mid post : List RoleDecl) (dA dB : RoleDecl)
    (aa : Option (List String)) (a₁ : Authorizer)
    (hid : dA.id = dB.id)
    (hb₁ : buildAuthorizer fuel (pre ++ [dA] ++ mid ++ [dB] ++ post) false aa
      = some (.ok a₁)) :
    ∃ a₂, buildAuthorizer fuel (pre ++ mid ++ [dB] ++ post) false aa = some (.ok a₂) ∧
      (∀ i, cacheGet a₁.roles i = cacheGet a₂.roles i) ∧
      (∀ k v, (idxGet a₁ k v).Perm (idxGet a₂ k v)) ∧
      a₁.strict = a₂.strict ∧ a₁.authorizeAgainst = a₂.authorizeAgainst := by
  have hids₁ : ∀ d ∈ (pre ++ [dA] ++ mid ++ [dB] ++ post), d.id ≠ "" := by
    have hb := hb₁
    rw [buildAuthorizer] at hb
    cases hp1 : phase1 (pre ++ [dA] ++ mid ++ [dB] ++ post) [] with
    | error e =>
      rw [hp1] at hb
      dsimp only at hb
      exact absurd (Option.some.inj hb) (fun h => Except.noConfusion h)
    | ok cA => exact phase1_ids_ne _ _ _ hp1
  apply build_agree fuel _ _ aa a₁ ?_ (dup_lookup_eq pre mid post dA dB hid) ?_ hb₁
  · intro x
    simp only [List.map_append, List.mem_append, List.map_cons, List.map_nil,
      List.mem_cons, List.not_mem_nil, or_false, hid]
    tauto
  · intro d hd
    apply hids₁
    simp only [List.mem_append, List.mem_cons, List.not_mem_nil, or_false] at hd ⊢
    tauto

/-- C10 amended witness: the amended theorem instantiated on the two
duplicate x declarations. -/
theorem C10_amended_witness :
    ∃ a₂, buildAuthorizer 1 ([] ++ [] ++ [dupXDecl2] ++ []) false none = some (.ok a₂) ∧
      (∀ i, cacheGet dupWitnessAuth.roles i = cacheGet a₂.roles i) ∧
      (∀ k v, (idxGet dupWitnessAuth k v).Perm (idxGet a₂ k v)) ∧
      dupWitnessAuth.strict = a₂.strict ∧
      dupWitnessAuth.authorizeAgainst = a₂.authorizeAgainst :=
  C10_amended 1 [] [] [] dupXDecl1 dupXDecl2 none dupWitnessAuth rfl rfl

end ClaimC10

end Rbac
